import Mathlib

/-!
Verification of the gowool/rbac role-based access-control core.

This file shallowly embeds the repository's data model and operations:

* `GoError` models Go error values: the package's sentinel errors
  (`ErrDeny`, `ErrRoleNotFound`, `ErrInvalidRole`, `ErrCircularReference`),
  wrapping via `fmt.Errorf` with `%w`, plain formatted errors, and
  `errors.Join` trees.  `errorIs` models `errors.Is` (identity at any
  depth of the wrap/join tree).
* A small regular-expression engine models `regexp.Compile` /
  `MatchString` on the fragment exercised by permission specifiers:
  plain characters, `.`, and the postfix repetition operators
  `*`, `+`, `?` (a repetition operator without a preceding operand is a
  compile error, as in Go, e.g. for the specifier `"*"`).  Unsupported
  punctuation is modelled as failing compilation.  Matching is
  unanchored, as `MatchString` is.
* `DefaultRole` / `Heap` model role objects addressed by identity (a
  numeric id stands for the Go pointer), with the name-keyed adjacency
  maps of the source.  The recursive traversals `HasPermission`,
  `HasAncestor`, `HasDescendant` and `Permissions` are defined through
  a fuel-indexed search `searchG`; the default fuel is the heap size,
  which is shown sufficient for every walk (walks shorten to
  duplicate-free ones).  `AddParent`/`AddChild` mirror the mutually
  recursive source methods; their mutual recursion is modelled with a
  nesting budget of 3, matching the source where the inner call always
  terminates at the idempotency or cycle check.
* `RBAC`, `HasRole`, `IsGrantedE`, and the `DefaultAuthorizer`'s
  `Authorize` follow rbac.go and authorizer.go.  `Authorize`
  additionally returns the list of candidates for which
  `IsGrantedE` was invoked, so that "no registry access" and
  short-circuiting are expressible.  `IsGrantedRec` models the
  variant of `IsGrantedE` that wraps the call in a `recover` handler
  converting assertion panics into returned errors; assertion outcomes
  there carry an explicit panic alternative.
-/

namespace Rbac

/-- Model of Go error values produced by the rbac package: the four
sentinel errors, `%w`-wrapping, plain message errors, and
`errors.Join` nodes.  `recLimit` and `absentRole` are artifacts of the
bounded model of the mutual `AddParent`/`AddChild` recursion and of
dangling role ids; they are unreachable in the situations the theorems
quantify over. -/
inductive GoError where
  | deny
  | roleNotFound
  | invalidRole
  | circularRef
  | wrap (inner : GoError) (note : String)
  | fmtMsg (s : String)
  | join (errs : List GoError)
  | recLimit
  | absentRole

mutual

/-- Structural equality of modelled error values (Go compares error
identity; sentinels are singletons, so structural equality of the model
coincides with identity of the modelled values). -/
def geq : GoError → GoError → Bool
  | .deny, .deny => true
  | .roleNotFound, .roleNotFound => true
  | .invalidRole, .invalidRole => true
  | .circularRef, .circularRef => true
  | .wrap a s, .wrap b t => geq a b && s == t
  | .fmtMsg s, .fmtMsg t => s == t
  | .join a, .join b => geqList a b
  | .recLimit, .recLimit => true
  | .absentRole, .absentRole => true
  | _, _ => false

/-- Pointwise `geq` on lists of errors. -/
def geqList : List GoError → List GoError → Bool
  | [], [] => true
  | a :: as, b :: bs => geq a b && geqList as bs
  | _, _ => false

end

mutual

/-- Model of `errors.Is err target`: `target` is found at the root or
anywhere below a `%w` wrap or inside an `errors.Join` tree. -/
def errorIs : GoError → GoError → Bool
  | e@(.wrap inner _), t => geq e t || errorIs inner t
  | e@(.join es), t => geq e t || errorIsList es t
  | e, t => geq e t

/-- `errors.Is` over each member of a join list. -/
def errorIsList : List GoError → GoError → Bool
  | [], _ => false
  | e :: es, t => errorIs e t || errorIsList es t

end

mutual

/-- Flatten the `errors.Join` structure of an error into the list of
joined leaves, in order.  Non-join errors are their own single leaf. -/
def errLeaves : GoError → List GoError
  | .join es => errLeavesList es
  | .deny => [.deny]
  | .roleNotFound => [.roleNotFound]
  | .invalidRole => [.invalidRole]
  | .circularRef => [.circularRef]
  | .wrap inner note => [.wrap inner note]
  | .fmtMsg s => [.fmtMsg s]
  | .recLimit => [.recLimit]
  | .absentRole => [.absentRole]

/-- Concatenated leaves of a list of joined errors. -/
def errLeavesList : List GoError → List GoError
  | [] => []
  | e :: es => errLeaves e ++ errLeavesList es

end

/-- `errors.Join(err, err1)` as used by `Authorize`: `err` is always
non-nil there, so the result is a join of `err` with `err1` when the
latter is non-nil, and a join of `err` alone otherwise. -/
def joinAcc (e : GoError) (e1 : Option GoError) : GoError :=
  match e1 with
  | none => .join [e]
  | some x => .join [e, x]

/-- A single regular-expression atom: a plain character or `.`. -/
inductive RAtom where
  | rchar (c : Char)
  | rdot
deriving DecidableEq

/-- A concatenation piece: an atom, possibly under a postfix
repetition operator `*`, `+` or `?`. -/
inductive RPiece where
  | once (a : RAtom)
  | star (a : RAtom)
  | plus (a : RAtom)
  | ropt (a : RAtom)
deriving DecidableEq

/-- A compiled pattern: a concatenation of pieces. -/
abbrev Regex := List RPiece

/-- Characters modelled as plain literal atoms of a pattern. -/
def plainChar (c : Char) : Bool :=
  c.isAlphanum || c == ' ' || c == '_' || c == '-' || c == '/' || c == ':' || c == ','

/-- A single character compiled to an atom; a repetition operator in
atom position has no operand and is a compile error, and a character
outside the modelled fragment is also treated as failing. -/
def compileAtom (c : Char) : Option RAtom :=
  if c == '*' || c == '+' || c == '?' then none
  else if c == '.' then some RAtom.rdot
  else if plainChar c then some (RAtom.rchar c) else none

/-- Pattern compilation over the modelled fragment (see the header
comment).  A repetition operator with no operand — e.g. the whole
pattern `"*"` — is a compile error, as in Go's `regexp.Compile`. -/
def compileChars : List Char → Option Regex
  | [] => some []
  | [c] =>
    match compileAtom c with
    | none => none
    | some a => some [RPiece.once a]
  | c :: d :: rest =>
    match compileAtom c with
    | none => none
    | some a =>
      if d == '*' then (compileChars rest).map (RPiece.star a :: ·)
      else if d == '+' then (compileChars rest).map (RPiece.plus a :: ·)
      else if d == '?' then (compileChars rest).map (RPiece.ropt a :: ·)
      else (compileChars (d :: rest)).map (RPiece.once a :: ·)

/-- `regexp.Compile` on a specifier string (modelled fragment). -/
def compile (s : String) : Option Regex :=
  compileChars s.data

/-- Whether an atom matches one character. -/
def atomMatch : RAtom → Char → Bool
  | .rchar c, d => c == d
  | .rdot, _ => true

/-- Fuel-indexed matcher: does some prefix of the input match the
pattern?  Each recursive call strictly decreases pattern length plus
input length, so the fuel of `matchHere` below never runs out;
backtracking match existence agrees with RE2 semantics. -/
def matchHereF : Nat → Regex → List Char → Bool
  | _, [], _ => true
  | 0, _ :: _, _ => false
  | n + 1, .once a :: ps, cs =>
    match cs with
    | [] => false
    | c :: cs2 => atomMatch a c && matchHereF n ps cs2
  | n + 1, .ropt a :: ps, cs =>
    matchHereF n ps cs ||
      (match cs with
       | [] => false
       | c :: cs2 => atomMatch a c && matchHereF n ps cs2)
  | n + 1, .plus a :: ps, cs =>
    (match cs with
     | [] => false
     | c :: cs2 => atomMatch a c && matchHereF n (.star a :: ps) cs2)
  | n + 1, .star a :: ps, cs =>
    matchHereF n ps cs ||
      (match cs with
       | [] => false
       | c :: cs2 => atomMatch a c && matchHereF n (.star a :: ps) cs2)

/-- Does some prefix of the input match the pattern? -/
def matchHere (r : Regex) (s : List Char) : Bool :=
  matchHereF (r.length + s.length + 1) r s

/-- Does the pattern match starting at some position of the input? -/
def searchFrom (r : Regex) : List Char → Bool
  | [] => matchHere r []
  | c :: t => matchHere r (c :: t) || searchFrom r t

/-- `re.MatchString(s)`: unanchored search. -/
def matchUnanchored (r : Regex) (s : String) : Bool :=
  searchFrom r s.data

/-- A role object (role.go `DefaultRole`): a name, the compiled
pattern specifiers in insertion order, the literal specifiers (the Go
`permissions` map holds exactly the specifiers whose compilation
failed), and the name-keyed `parents`/`children` maps, each entry
holding the key and the identity (heap id, standing for the Go
pointer) of the referenced role. -/
structure DefaultRole where
  name : String
  rePermissions : List Regex
  permissions : List String
  parents : List (String × Nat)
  children : List (String × Nat)
deriving DecidableEq

/-- `NewRole`: a role with the given name and no permissions or
edges. -/
def NewRole (name : String) : DefaultRole :=
  { name := name, rePermissions := [], permissions := [], parents := [], children := [] }

/-- The store of all created role objects, addressed by identity. -/
abbrev Heap := List (Nat × DefaultRole)

/-- The ids of all roles in the store. -/
def heapIds (h : Heap) : List Nat :=
  h.map (·.1)

/-- Dereference a role id. -/
def lookupRole (h : Heap) (i : Nat) : Option DefaultRole :=
  match h.find? (fun e => e.1 == i) with
  | some e => some e.2
  | none => none

/-- Mutate the role stored under an id. -/
def updateRole (h : Heap) (i : Nat) (f : DefaultRole → DefaultRole) : Heap :=
  h.map (fun e => if e.1 == i then (e.1, f e.2) else e)

/-- Ids of the roles in the `children` map. -/
def childIds (r : DefaultRole) : List Nat :=
  r.children.map (·.2)

/-- Ids of the roles in the `parents` map. -/
def parentIds (r : DefaultRole) : List Nat :=
  r.parents.map (·.2)

/-- Keys of the `children` map. -/
def childKeys (r : DefaultRole) : List String :=
  r.children.map (·.1)

/-- Keys of the `parents` map. -/
def parentKeys (r : DefaultRole) : List String :=
  r.parents.map (·.1)

/-- Fuel-indexed search over an abstract adjacency: from node `x`,
does some node reachable along `adj` satisfy `base`?  This is the
common recursion scheme of `HasPermission`, `HasAncestor`,
`HasDescendant` and `Permissions` in role.go; the fuel models the
depth of the source's recursion, which is unbounded on cyclic graphs
(see the termination theorems). -/
def searchG (adj : Nat → Option (List Nat)) (base : Nat → Bool) : Nat → Nat → Bool
  | 0, _ => false
  | n + 1, x =>
    match adj x with
    | none => false
    | some ds => base x || ds.any (fun y => searchG adj base n y)

/-- Adjacency along `children` references. -/
def childAdj (h : Heap) (i : Nat) : Option (List Nat) :=
  (lookupRole h i).map childIds

/-- Adjacency along `parents` references. -/
def parentAdj (h : Heap) (i : Nat) : Option (List Nat) :=
  (lookupRole h i).map parentIds

/-- The own-match test of `HasPermission`: the queried action is in
the literal map, or some compiled pattern matches it (unanchored). -/
def permBase (h : Heap) (permission : String) (x : Nat) : Bool :=
  match lookupRole h x with
  | some r => r.permissions.contains permission || r.rePermissions.any (fun re => matchUnanchored re permission)
  | none => false

/-- `DefaultRole.HasPermission`: own match, or some child
(recursively) has it.  The receiver is the role with id `x`. -/
def HasPermission (h : Heap) (x : Nat) (permission : String) : Bool :=
  searchG (childAdj h) (permBase h permission) h.length x

/-- Base test of `HasAncestor`: the target's name is a key of the
current role's `parents` map. -/
def ancBase (h : Heap) (tname : String) (x : Nat) : Bool :=
  match lookupRole h x with
  | some r => (parentKeys r).contains tname
  | none => false

/-- Base test of `HasDescendant`: the target's name is a key of the
current role's `children` map. -/
def descBase (h : Heap) (tname : String) (x : Nat) : Bool :=
  match lookupRole h x with
  | some r => (childKeys r).contains tname
  | none => false

/-- `DefaultRole.HasAncestor`: the target is keyed in the `parents`
map, or some parent (recursively) answers true. -/
def HasAncestor (h : Heap) (x tid : Nat) : Bool :=
  match lookupRole h tid with
  | some t => searchG (parentAdj h) (ancBase h t.name) h.length x
  | none => false

/-- `DefaultRole.HasDescendant`: the target is keyed in the
`children` map, or some child (recursively) answers true. -/
def HasDescendant (h : Heap) (x tid : Nat) : Bool :=
  match lookupRole h tid with
  | some t => searchG (childAdj h) (descBase h t.name) h.length x
  | none => false

/-- Fuel-indexed `DefaultRole.Permissions`: the own literal
specifiers, unioned (when `withChildren`) with every child's
recursively; the result models the key set of the accumulated map, so
it is deduplicated. -/
def PermissionsF (h : Heap) : Nat → Nat → Bool → List String
  | 0, _, _ => []
  | n + 1, x, withChildren =>
    match lookupRole h x with
    | none => []
    | some r =>
      if withChildren then
        (r.permissions ++ (childIds r).flatMap (fun c => PermissionsF h n c true)).dedup
      else r.permissions.dedup

/-- `DefaultRole.Permissions` at the default (sufficient) fuel. -/
def Permissions (h : Heap) (x : Nat) (withChildren : Bool) : List String :=
  PermissionsF h h.length x withChildren

/-- One step of `AddPermissions`: a specifier that compiles is
appended to the compiled patterns; one that fails to compile is added
to the literal map. -/
def addPerm (r : DefaultRole) (p : String) : DefaultRole :=
  match compile p with
  | some re => { r with rePermissions := r.rePermissions ++ [re] }
  | none =>
    if r.permissions.contains p then r
    else { r with permissions := r.permissions ++ [p] }

/-- `DefaultRole.AddPermissions` over a list of specifiers. -/
def AddPermissions (r : DefaultRole) (ps : List String) : DefaultRole :=
  ps.foldl addPerm r

mutual

/-- `DefaultRole.AddParent`, with the receiver and argument given by
id.  Mirrors role.go: reject with the circular-reference error if the
argument is already a descendant; return nil if the edge is already
keyed; otherwise install the parent entry and delegate to the
argument's `AddChild`.  The fuel bounds the source's mutual
recursion, whose nesting depth is at most 3 (the innermost call ends
at the idempotency or cycle check). -/
def addParentF : Nat → Heap → Nat → Nat → Heap × Option GoError
  | 0, h, _, _ => (h, some .recLimit)
  | fuel + 1, h, rid, pid =>
    match lookupRole h rid, lookupRole h pid with
    | some r, some p =>
      if HasDescendant h rid pid then (h, some (.wrap .circularRef p.name))
      else if (parentKeys r).contains p.name then (h, none)
      else
        let h1 := updateRole h rid (fun q => { q with parents := q.parents ++ [(p.name, pid)] })
        addChildF fuel h1 pid rid
    | _, _ => (h, some .absentRole)

/-- `DefaultRole.AddChild`, mirror image of `addParentF`. -/
def addChildF : Nat → Heap → Nat → Nat → Heap × Option GoError
  | 0, h, _, _ => (h, some .recLimit)
  | fuel + 1, h, rid, cid =>
    match lookupRole h rid, lookupRole h cid with
    | some r, some c =>
      if HasAncestor h rid cid then (h, some (.wrap .circularRef c.name))
      else if (childKeys r).contains c.name then (h, none)
      else
        let h1 := updateRole h rid (fun q => { q with children := q.children ++ [(c.name, cid)] })
        addParentF fuel h1 cid rid
    | _, _ => (h, some .absentRole)

end

/-- `AddParent` at the sufficient nesting budget. -/
def AddParent (h : Heap) (rid pid : Nat) : Heap × Option GoError :=
  addParentF 3 h rid pid

/-- `AddChild` at the sufficient nesting budget. -/
def AddChild (h : Heap) (rid cid : Nat) : Heap × Option GoError :=
  addChildF 3 h rid cid

/-- One graph-mutating call of a history: `AddParent` or `AddChild`
on the roles with the given ids. -/
inductive EdgeOp where
  | parentOp (rid pid : Nat)
  | childOp (rid cid : Nat)

/-- The receiver id of an operation. -/
def opRecv : EdgeOp → Nat
  | .parentOp rid _ => rid
  | .childOp rid _ => rid

/-- The argument id of an operation. -/
def opArg : EdgeOp → Nat
  | .parentOp _ pid => pid
  | .childOp _ cid => cid

/-- Apply one call to the store, returning the new store and the
call's returned error. -/
def applyOp (h : Heap) : EdgeOp → Heap × Option GoError
  | .parentOp rid pid => AddParent h rid pid
  | .childOp rid cid => AddChild h rid cid

/-- Run a sequence of calls, keeping the store of each step whether
the call succeeded or failed. -/
def runOps (h : Heap) (ops : List EdgeOp) : Heap :=
  ops.foldl (fun hh op => (applyOp hh op).1) h

/-- The directed edge a successful call installs, as (role whose
`parents` map gains an entry, role whose `children` map gains an
entry). -/
def opEdge : EdgeOp → Nat × Nat
  | .parentOp rid pid => (rid, pid)
  | .childOp rid cid => (cid, rid)

/-- A reference (key, id) held in an adjacency map is well formed when
the id dereferences to a role whose name equals the key — role.go
always stores a role under its own `Name()`. -/
def refOkB (h : Heap) (e : String × Nat) : Bool :=
  match lookupRole h e.2 with
  | some c => c.name == e.1
  | none => false

/-- The store is well formed: ids are unique and every adjacency
reference dereferences to a role carrying the key as its name. -/
def WellFormed (h : Heap) : Prop :=
  (heapIds h).Nodup ∧
    ∀ p ∈ h, (∀ e ∈ p.2.children, refOkB h e = true) ∧ (∀ e ∈ p.2.parents, refOkB h e = true)

instance : DecidablePred WellFormed := fun h =>
  inferInstanceAs (Decidable (_ ∧ _))

/-- Role names identify roles: two stored roles with equal names are
the same entry. -/
def NamesInj (h : Heap) : Prop :=
  ∀ p ∈ h, ∀ q ∈ h, p.2.name = q.2.name → p.1 = q.1

instance : DecidablePred NamesInj := fun h =>
  inferInstanceAs (Decidable (∀ p ∈ h, ∀ q ∈ h, p.2.name = q.2.name → p.1 = q.1))

/-- Every edge is recorded in both directions: a role is keyed in
another's `parents` map exactly when the latter is keyed in the
former's `children` map. -/
def SymmetricHeap (h : Heap) : Prop :=
  ∀ p ∈ h, ∀ q ∈ h, ((q.2.name, q.1) ∈ p.2.parents ↔ (p.2.name, p.1) ∈ q.2.children)

instance : DecidablePred SymmetricHeap := fun h =>
  inferInstanceAs (Decidable (∀ p ∈ h, ∀ q ∈ h, _ ↔ _))

/-- Is the role with id `z` on a `children`-cycle: can a role whose
`children` references include `z` be reached from `z`? -/
def cycleAtB (h : Heap) (z : Nat) : Bool :=
  searchG (childAdj h)
    (fun v =>
      match lookupRole h v with
      | some r => (childIds r).contains z
      | none => false)
    h.length z

/-- The `children` reference relation is acyclic. -/
def AcyclicHeap (h : Heap) : Prop :=
  ∀ i ∈ heapIds h, cycleAtB h i = false

instance : DecidablePred AcyclicHeap := fun h =>
  inferInstanceAs (Decidable (∀ i ∈ heapIds h, cycleAtB h i = false))

/-- Both directions of the edge making `pid` a parent of `rid` are
recorded. -/
def BothEdges (h : Heap) (rid pid : Nat) : Prop :=
  ∃ r p, lookupRole h rid = some r ∧ lookupRole h pid = some p ∧
    (p.name, pid) ∈ r.parents ∧ (r.name, rid) ∈ p.children

instance (h : Heap) (rid pid : Nat) : Decidable (BothEdges h rid pid) := by
  unfold BothEdges
  cases lookupRole h rid <;> cases lookupRole h pid <;> simp <;> infer_instance

/-- A store of freshly created roles: unique ids, pairwise-distinct
names, and no edges yet. -/
def FreshHeap (h : Heap) : Prop :=
  (heapIds h).Nodup ∧ NamesInj h ∧ ∀ p ∈ h, p.2.parents = [] ∧ p.2.children = []

instance : DecidablePred FreshHeap := fun h =>
  inferInstanceAs (Decidable (_ ∧ _ ∧ _))

/-- The registry (rbac.go `RBAC`): the name-to-role map (values by
identity) and the auto-create flag. -/
structure RBAC where
  roles : List (String × Nat)
  createMissingRoles : Bool

/-- Lookup in the registry's role map. -/
def regLookup (reg : RBAC) (name : String) : Option Nat :=
  match reg.roles.find? (fun e => e.1 == name) with
  | some e => some e.2
  | none => none

/-- The `role any` parameter of the registry's methods: a bare name,
a role value (by identity), or a value of some other type. -/
inductive RoleArg where
  | byName (s : String)
  | byValue (id : Nat)
  | otherVal

/-- `fmt.Sprintf("%s", role)`: a name prints as itself and a role
value prints via `String()` as its name. -/
def roleString (h : Heap) : RoleArg → String
  | .byName s => s
  | .byValue i =>
    match lookupRole h i with
    | some r => r.name
    | none => ""
  | .otherVal => "!"

/-- `RBAC.HasRole`: a bare name is looked up in the map; a role value
must be identical (same identity) to the role stored under its name;
any other argument is the invalid-role error. -/
def HasRole (reg : RBAC) (h : Heap) : RoleArg → Except GoError Bool
  | .byName s => .ok (regLookup reg s).isSome
  | .byValue i =>
    match regLookup reg (roleString h (.byValue i)) with
    | some sid => .ok (sid == i)
    | none => .ok false
  | .otherVal => .error .invalidRole

/-- An assertion (interface-era): receives the resolved role and the
permission, returns granted plus an optional error.  The context is
passed through opaquely by the source and is omitted. -/
abbrev Assertion := Nat → String → Bool × Option GoError

/-- The assertion loop of `IsGrantedE`: the first assertion returning
false or a non-nil error stops evaluation with `(false, thatError)`. -/
def runAssertions (assertions : List Assertion) (rid : Nat) (permission : String) : Bool × Option GoError :=
  match assertions with
  | [] => (true, none)
  | a :: rest =>
    let out := a rid permission
    if !out.1 || out.2.isSome then (false, out.2)
    else runAssertions rest rid permission

/-- `RBAC.IsGrantedE` (interface-era variant of rbac.go): resolve the
role via `HasRole` and the map, deny without error when the role
lacks the permission, then run the assertions in order. -/
def IsGrantedE (reg : RBAC) (h : Heap) (role : RoleArg) (permission : String)
    (assertions : List Assertion) : Bool × Option GoError :=
  match HasRole reg h role with
  | .error e => (false, some e)
  | .ok false => (false, some (.wrap .roleNotFound (roleString h role)))
  | .ok true =>
    match regLookup reg (roleString h role) with
    | none => (false, some (.wrap .roleNotFound (roleString h role)))
    | some rid =>
      if !(HasPermission h rid permission) then (false, none)
      else runAssertions assertions rid permission

/-- A Go panic payload: an error value, or any other value (printed
with `%v`). -/
inductive PanicVal where
  | errVal (e : GoError)
  | strVal (s : String)

/-- The conversion performed by the `recover` handler of the
recover-equipped `IsGrantedE`: an error payload is returned as is,
any other payload through `fmt.Errorf("%v", rec)`. -/
def recoverErr : PanicVal → GoError
  | .errVal e => e
  | .strVal s => .fmtMsg s

/-- Outcome of evaluating one assertion in the recover-equipped
variant: normal completion with a boolean, or a panic. -/
inductive AssertOutcome where
  | normal (ok : Bool)
  | panicked (v : PanicVal)

/-- An assertion whose evaluation may terminate abnormally. -/
abbrev AssertionRec := Nat → String → AssertOutcome

/-- The assertion loop of the recover-equipped `IsGrantedE`: a panic
is caught at the function boundary and converted into a returned
error with `granted` still false; a false assertion denies without
error; evaluation stops at the first non-true outcome. -/
def runAssertionsRec (assertions : List AssertionRec) (rid : Nat) (permission : String) :
    Bool × Option GoError :=
  match assertions with
  | [] => (true, none)
  | a :: rest =>
    match a rid permission with
    | .panicked v => (false, some (recoverErr v))
    | .normal false => (false, none)
    | .normal true => runAssertionsRec rest rid permission

/-- The `roleName` helper of the recover-equipped variant: a string
is its own name, a role value yields its `Name()`, anything else is
the invalid-role error. -/
def roleNameOf (h : Heap) : RoleArg → Except GoError String
  | .byName s => .ok s
  | .byValue i => .ok (roleString h (.byValue i))
  | .otherVal => .error .invalidRole

/-- The recover-equipped `RBAC.IsGrantedE` variant (the whole body
runs under `defer/recover`, so an assertion panic becomes a returned
error instead of propagating). -/
def IsGrantedRec (reg : RBAC) (h : Heap) (role : RoleArg) (permission : String)
    (assertions : List AssertionRec) : Bool × Option GoError :=
  match roleNameOf h role with
  | .error e => (false, some e)
  | .ok name =>
    match regLookup reg name with
    | none => (false, some (.wrap .roleNotFound name))
    | some rid =>
      if !(HasPermission h rid permission) then (false, none)
      else runAssertionsRec assertions rid permission

/-- A subject: identifier plus declared role names in order. -/
structure Subject where
  identifier : String
  roles : List String

/-- Claims: an optional subject (`none` models a nil subject). -/
structure Claims where
  subject : Option Subject

/-- A target: action and ordered assertions. -/
structure Target where
  action : String
  assertions : List Assertion

/-- The binary decision. -/
inductive Decision where
  | deny
  | allow
deriving DecidableEq

/-- The candidate loop of `DefaultAuthorizer.Authorize`, carrying the
`errors.Join` accumulator (initially the deny sentinel).  Besides the
decision and error it returns the list of candidates for which
`IsGrantedE` was actually invoked. -/
def authorizeLoop (reg : RBAC) (h : Heap) (action : String) (assertions : List Assertion) :
    List String → GoError → Decision × Option GoError × List String
  | [], e => (.deny, some e, [])
  | c :: rest, e =>
    let out := IsGrantedE reg h (.byName c) action assertions
    if out.1 && out.2.isNone then (.allow, none, [c])
    else
      let next := authorizeLoop reg h action assertions rest (joinAcc e out.2)
      (next.1, next.2.1, c :: next.2.2)

/-- `DefaultAuthorizer.Authorize` (identifier-era variant): deny with
the deny sentinel, without touching the registry, on a nil or
empty-action target or nil claims/subject; otherwise try the
subject's identifier followed by its role names in order. -/
def Authorize (reg : RBAC) (h : Heap) (claims : Option Claims) (target : Option Target) :
    Decision × Option GoError × List String :=
  match target with
  | none => (.deny, some .deny, [])
  | some t =>
    if t.action = "" then (.deny, some .deny, [])
    else
      match claims with
      | none => (.deny, some .deny, [])
      | some cl =>
        match cl.subject with
        | none => (.deny, some .deny, [])
        | some sub => authorizeLoop reg h t.action t.assertions (sub.identifier :: sub.roles) .deny

/-- Swap the two adjacency maps of a role (proof device relating
`AddChild` to `AddParent`). -/
def transposeRole (r : DefaultRole) : DefaultRole :=
  { r with parents := r.children, children := r.parents }

/-- Transpose every role of the store. -/
def transposeHeap (h : Heap) : Heap :=
  h.map (fun e => (e.1, transposeRole e.2))

/-- Total last element of a list with a default (the final node of a
walk that starts at the default and continues through the list). -/
def lastD : List Nat → Nat → Nat
  | [], d => d
  | b :: t, _ => lastD t b

/-- One step along an abstract adjacency. -/
def Step (adj : Nat → Option (List Nat)) (a b : Nat) : Prop :=
  ∃ ds, adj a = some ds ∧ b ∈ ds

/-- Reachability (any number of steps) along an adjacency. -/
def Reaches (adj : Nat → Option (List Nat)) : Nat → Nat → Prop :=
  Relation.ReflTransGen (Step adj)

/-- Reachability in at least one step. -/
def ReachPlus (adj : Nat → Option (List Nat)) (a b : Nat) : Prop :=
  ∃ v, Reaches adj a v ∧ Step adj v b

/-- `f` solves the recursive defining equations of a role-graph
traversal with own-test `base` and adjacency selector `adjSel`:
role.go's `HasPermission`, `HasAncestor` and `HasDescendant` are each
of this shape. -/
def SolWith (h : Heap) (adjSel : DefaultRole → List Nat) (base : Nat → Bool) (f : Nat → Bool) : Prop :=
  ∀ x r, lookupRole h x = some r → f x = (base x || (adjSel r).any f)

/-- Concrete example role: the specifier `"*"` fails pattern
compilation, so it is stored as a literal. -/
def wRole : DefaultRole := AddPermissions (NewRole "u") ["*"]

/-- Example store holding `wRole` under id 0. -/
def wHeap : Heap := [(0, wRole)]

/-- Example registry mapping name `"u"` to the stored role. -/
def wReg : RBAC := { roles := [("u", 0)], createMissingRoles := false }

/-- Example assertion that completes normally with `true`. -/
def wTrueAssert : AssertionRec := fun _ _ => .normal true

/-- Example assertion that panics mid-evaluation. -/
def wPanicAssert : AssertionRec := fun _ _ => .panicked (.strVal "boom")

/-- Example subject whose identifier is unregistered and whose sole
role name is registered. -/
def c2Subject : Subject := { identifier := "z", roles := ["u"] }

/-- Example claims for the subject above. -/
def c2Claims : Claims := { subject := some c2Subject }

/-- Example target for the granted action. -/
def c2Target : Target := { action := "*", assertions := [] }

/-- Example subject whose identifier is a registered role name. -/
def c8Subject : Subject := { identifier := "u", roles := [] }

/-- Example claims for the error-free denial scenario. -/
def c8Claims : Claims := { subject := some c8Subject }

/-- Example target whose action the role does not hold. -/
def c8Target : Target := { action := "zz", assertions := [] }

/-- A store holding a single fresh role, used to exercise a role
passed to its own `AddParent`. -/
def selfHeap : Heap := [(0, NewRole "r")]

/-- Two fresh roles with distinct names. -/
def freshHeap2 : Heap := [(0, NewRole "a"), (1, NewRole "b")]

/-- A role on a direct self-cycle in both adjacency maps. -/
def loopRole : DefaultRole :=
  { name := "r", rePermissions := [], permissions := [], parents := [("r", 0)],
    children := [("r", 0)] }

/-- A store with a self-cycle plus an unrelated fresh role. -/
def loopHeap : Heap := [(0, loopRole), (1, NewRole "z")]

/-- Role holding the compiled specifier `"bar"` and the literal
specifier `"*"` (which fails compilation). -/
def c4Role : DefaultRole := AddPermissions (NewRole "p") ["bar", "*"]

/-- Store for the permission-matching example. -/
def c4Heap : Heap := [(0, c4Role)]

/-- Store with role `a` (own literal specifier `"("`) having child
`b` (own literal specifier `"*"`). -/
def c5Heap : Heap :=
  (AddChild [(0, AddPermissions (NewRole "a") ["("]),
             (1, AddPermissions (NewRole "b") ["*"])] 0 1).1

/-- The own-literal test of `Permissions`: the permission is in the
role's literal map (`Permissions` does not consult the compiled
patterns). -/
def litBase (h : Heap) (p : String) (v : Nat) : Bool :=
  match lookupRole h v with
  | some r => r.permissions.contains p
  | none => false

/-- The compiled form of a pattern consisting only of plain literal
characters. -/
def litRegex (cs : List Char) : Regex :=
  cs.map (fun c => RPiece.once (RAtom.rchar c))

/-- The graph invariant of the role store: well-formed references,
name-identified roles, symmetrically recorded edges, and an acyclic
child relation. -/
def InvHeap (h : Heap) : Prop :=
  WellFormed h ∧ NamesInj h ∧ SymmetricHeap h ∧ AcyclicHeap h

instance : DecidablePred InvHeap := fun _h =>
  inferInstanceAs (Decidable (_ ∧ _ ∧ _ ∧ _))

/-- Store with chain `a` → `b` → `c` along child edges. -/
def c7Heap : Heap :=
  (AddChild (AddChild [(0, NewRole "a"), (1, NewRole "b"), (2, NewRole "c")] 0 1).1 1 2).1

theorem lookupRole_mem {h : Heap} {i : Nat} {r : DefaultRole}
    (hl : lookupRole h i = some r) : (i, r) ∈ h := by
  unfold lookupRole at hl
  cases hfind : h.find? (fun e => e.1 == i) with
  | none => simp [hfind] at hl
  | some e =>
    simp only [hfind] at hl
    cases hl
    have hm := List.mem_of_find?_eq_some hfind
    have hp := List.find?_some hfind
    have : e.1 = i := by simpa using hp
    cases e
    simp_all

theorem lookupRole_fst {h : Heap} {i : Nat} {r : DefaultRole}
    (hl : lookupRole h i = some r) : (lookupRole h i).isSome := by
  simp [hl]

theorem lookupRole_isSome_iff (h : Heap) (i : Nat) :
    (lookupRole h i).isSome ↔ i ∈ heapIds h := by
  unfold lookupRole heapIds
  rw [Option.isSome_iff_exists]
  constructor
  · rintro ⟨r, hr⟩
    cases hfind : h.find? (fun e => e.1 == i) with
    | none => simp [hfind] at hr
    | some e =>
      have hm := List.mem_of_find?_eq_some hfind
      have hp := List.find?_some hfind
      have : e.1 = i := by simpa using hp
      exact this ▸ List.mem_map_of_mem _ hm
  · intro hmem
    rcases List.mem_map.mp hmem with ⟨e, he, rfl⟩
    have : (h.find? (fun x => x.1 == e.1)).isSome := by
      rw [List.find?_isSome]
      exact ⟨e, he, by simp⟩
    rcases Option.isSome_iff_exists.mp this with ⟨w, hw⟩
    exact ⟨w.2, by simp [hw]⟩

theorem heapIds_cons (e : Nat × DefaultRole) (t : Heap) :
    heapIds (e :: t) = e.1 :: heapIds t :=
  rfl

theorem lookupRole_of_mem {h : Heap} (hn : (heapIds h).Nodup) {i : Nat} {r : DefaultRole}
    (hm : (i, r) ∈ h) : lookupRole h i = some r := by
  induction h with
  | nil => cases hm
  | cons e t ih =>
    rw [heapIds_cons, List.nodup_cons] at hn
    rw [List.mem_cons] at hm
    rcases hm with rfl | hm
    · simp [lookupRole, List.find?]
    · have hne : (e.1 == i) = false := by
        rw [beq_eq_false_iff_ne]
        intro hc
        apply hn.1
        rw [hc]
        exact List.mem_map_of_mem _ hm
      simp only [lookupRole, List.find?, hne] at ih ⊢
      exact ih hn.2 hm

theorem lookupRole_updateRole (h : Heap) (i : Nat) (f : DefaultRole → DefaultRole) (j : Nat) :
    lookupRole (updateRole h i f) j =
      if j = i then (lookupRole h i).map f else lookupRole h j := by
  have hg : (fun e : Nat × DefaultRole =>
      ((if e.1 == i then (e.1, f e.2) else e).1 == j)) = (fun e => e.1 == j) := by
    funext e
    by_cases he : e.1 = i <;> simp [he]
  unfold updateRole lookupRole
  rw [List.find?_map]
  have hcomp : ((fun e : Nat × DefaultRole => e.1 == j) ∘
      fun e => if e.1 == i then (e.1, f e.2) else e) = (fun e => e.1 == j) := by
    rw [Function.comp_def]
    exact hg
  rw [hcomp]
  cases hfind : h.find? (fun e => e.1 == j) with
  | none =>
    by_cases hji : j = i
    · subst hji
      simp [hfind]
    · simp [hji]
  | some e =>
    have he1 : e.1 = j := by simpa using List.find?_some hfind
    by_cases hji : j = i
    · subst hji
      simp [hfind, he1]
    · have hne : (e.1 == i) = false := by simp [he1, hji]
      simp [hfind, hji, he1]

theorem heapIds_updateRole (h : Heap) (i : Nat) (f : DefaultRole → DefaultRole) :
    heapIds (updateRole h i f) = heapIds h := by
  unfold heapIds updateRole
  rw [List.map_map]
  apply List.map_congr_left
  intro e _
  by_cases he : e.1 = i <;> simp [he]

theorem length_updateRole (h : Heap) (i : Nat) (f : DefaultRole → DefaultRole) :
    (updateRole h i f).length = h.length := by
  simp [updateRole]

theorem searchG_mono (adj : Nat → Option (List Nat)) (base : Nat → Bool) :
    ∀ {n m x}, n ≤ m → searchG adj base n x = true → searchG adj base m x = true := by
  intro n
  induction n with
  | zero => intro m x _ hfalse; simp [searchG] at hfalse
  | succ k ih =>
    intro m x hnm hs
    obtain ⟨m', rfl⟩ : ∃ m', m = m' + 1 := ⟨m - 1, by omega⟩
    simp only [searchG] at hs ⊢
    cases hadj : adj x with
    | none => simp [hadj] at hs
    | some ds =>
      simp only [hadj] at hs ⊢
      rw [Bool.or_eq_true] at hs
      rcases hs with hb | hany
      · simp [hb]
      · rcases List.any_eq_true.mp hany with ⟨y, hy, hsy⟩
        rw [Bool.or_eq_true]
        exact .inr (List.any_eq_true.mpr ⟨y, hy, ih (by omega) hsy⟩)

theorem searchG_sound (adj : Nat → Option (List Nat)) (base : Nat → Bool) :
    ∀ {n x}, searchG adj base n x = true →
      ∃ v, Reaches adj x v ∧ (adj v).isSome ∧ base v = true := by
  intro n
  induction n with
  | zero => intro x hfalse; simp [searchG] at hfalse
  | succ k ih =>
    intro x hs
    simp only [searchG] at hs
    cases hadj : adj x with
    | none => simp [hadj] at hs
    | some ds =>
      simp only [hadj] at hs
      rw [Bool.or_eq_true] at hs
      rcases hs with hb | hany
      · exact ⟨x, Relation.ReflTransGen.refl, by simp [hadj], hb⟩
      · rcases List.any_eq_true.mp hany with ⟨y, hy, hsy⟩
        rcases ih hsy with ⟨v, hr, hvs, hvb⟩
        exact ⟨v, Relation.ReflTransGen.head ⟨ds, hadj, hy⟩ hr, hvs, hvb⟩

theorem searchG_of_chain (adj : Nat → Option (List Nat)) (base : Nat → Bool) :
    ∀ (l : List Nat) (x : Nat) (n : Nat), List.Chain (Step adj) x l → l.length < n →
      (adj (lastD l x)).isSome → base (lastD l x) = true →
      searchG adj base n x = true := by
  intro l
  induction l with
  | nil =>
    intro x n _ hn hks hb
    obtain ⟨m, rfl⟩ : ∃ m, n = m + 1 := ⟨n - 1, by omega⟩
    simp only [lastD] at hks hb
    rcases Option.isSome_iff_exists.mp hks with ⟨ds, hds⟩
    simp [searchG, hds, hb]
  | cons b t ih =>
    intro x n hchain hn hks hb
    obtain ⟨m, rfl⟩ : ∃ m, n = m + 1 := ⟨n - 1, by omega⟩
    rcases List.chain_cons.mp hchain with ⟨⟨ds, hds, hbmem⟩, hchain'⟩
    have hlast : lastD (b :: t) x = lastD t b := rfl
    rw [hlast] at hks hb
    have hrec := ih b m hchain' (by simpa using hn) hks hb
    simp only [searchG, hds]
    rw [Bool.or_eq_true]
    exact .inr (List.any_eq_true.mpr ⟨b, hbmem, hrec⟩)

theorem exists_dup_split {l : List Nat} (hnd : ¬ l.Nodup) :
    ∃ a s t u, l = s ++ a :: (t ++ a :: u) := by
  induction l with
  | nil => exact absurd List.nodup_nil hnd
  | cons b t ih =>
    by_cases hb : b ∈ t
    · rcases List.append_of_mem hb with ⟨s, u, rfl⟩
      exact ⟨b, [], s, u, by simp⟩
    · have hnt : ¬ t.Nodup := fun hc => hnd (List.nodup_cons.mpr ⟨hb, hc⟩)
      rcases ih hnt with ⟨a, s, t', u, rfl⟩
      exact ⟨a, b :: s, t', u, by simp⟩

theorem getLastD_append_cons (s : List Nat) (c : Nat) (t : List Nat) (d : Nat) :
    lastD (s ++ c :: t) d = lastD t c := by
  induction s generalizing d with
  | nil => rfl
  | cons a s' ih => simpa [lastD] using ih a

theorem getLast_cons_getLastD (x : Nat) (l : List Nat) (hne : x :: l ≠ []) :
    (x :: l).getLast hne = lastD l x := by
  induction l generalizing x with
  | nil => rfl
  | cons b t ih =>
    rw [List.getLast_cons_cons, ih b (by simp)]
    rfl

theorem chain_shorten_aux (R : Nat → Nat → Prop) :
    ∀ (n : Nat) (l : List Nat) (x : Nat), l.length ≤ n → List.Chain R x l →
      ∃ l', List.Chain R x l' ∧ lastD l' x = lastD l x ∧ (x :: l').Nodup ∧
        (x :: l') ⊆ (x :: l) ∧ l'.length ≤ l.length := by
  intro n
  induction n with
  | zero =>
    intro l x hlen _
    have : l = [] := List.length_eq_zero.mp (Nat.le_zero.mp hlen)
    subst this
    exact ⟨[], List.Chain.nil, rfl, by simp, by simp, le_refl _⟩
  | succ k ih =>
    intro l x hlen hchain
    by_cases hnd : (x :: l).Nodup
    · exact ⟨l, hchain, rfl, hnd, fun a ha => ha, le_refl _⟩
    · by_cases hx : x ∈ l
      · rcases List.append_of_mem hx with ⟨s, t, rfl⟩
        have hsplit := List.chain_split.mp hchain
        have hlen' : t.length ≤ k := by
          have := hlen
          simp only [List.length_append, List.length_cons] at this
          omega
        rcases ih t x hlen' hsplit.2 with ⟨l', hc', hlast', hnd', hsub', hlt'⟩
        refine ⟨l', hc', ?_, hnd', ?_, ?_⟩
        · rw [hlast', getLastD_append_cons]
        · intro a ha
          rcases List.mem_cons.mp (hsub' ha) with rfl | ha2
          · exact List.mem_cons_self _ _
          · exact List.mem_cons.mpr (.inr (List.mem_append.mpr (.inr (List.mem_cons.mpr (.inr ha2)))))
        · simp only [List.length_append, List.length_cons]; omega
      · have hnl : ¬ l.Nodup := fun hc => hnd (List.nodup_cons.mpr ⟨hx, hc⟩)
        rcases exists_dup_split hnl with ⟨a, s, t, u, rfl⟩
        have h1 := (@List.chain_split ℕ R x a s (t ++ a :: u)).mp hchain
        have h2 := (@List.chain_split ℕ R a a t u).mp h1.2
        have hchain2 : List.Chain R x (s ++ a :: u) :=
          (@List.chain_split ℕ R x a s u).mpr ⟨h1.1, h2.2⟩
        have hlen2 : (s ++ a :: u).length ≤ k := by
          have := hlen
          simp only [List.length_append, List.length_cons] at this ⊢
          omega
        rcases ih (s ++ a :: u) x hlen2 hchain2 with ⟨l', hc', hlast', hnd', hsub', hlt'⟩
        refine ⟨l', hc', ?_, hnd', ?_, ?_⟩
        · rw [hlast', getLastD_append_cons, getLastD_append_cons, getLastD_append_cons]
        · intro b hb
          rcases List.mem_cons.mp (hsub' hb) with rfl | hb2
          · exact List.mem_cons_self _ _
          · refine List.mem_cons.mpr (.inr ?_)
            rcases List.mem_append.mp hb2 with hb3 | hb3
            · exact List.mem_append.mpr (.inl hb3)
            · rcases List.mem_cons.mp hb3 with rfl | hb4
              · exact List.mem_append.mpr (.inr (List.mem_cons_self _ _))
              · exact List.mem_append.mpr (.inr (List.mem_cons.mpr (.inr (List.mem_append.mpr (.inr (List.mem_cons.mpr (.inr hb4)))))))
        · have := hlt'
          simp only [List.length_append, List.length_cons] at this ⊢
          omega

theorem chain_mem_isSome (adj : Nat → Option (List Nat)) :
    ∀ (l : List Nat) (x : Nat), List.Chain (Step adj) x l →
      (adj (lastD l x)).isSome → ∀ w ∈ x :: l, (adj w).isSome := by
  intro l
  induction l with
  | nil =>
    intro x _ hlast w hw
    simp only [lastD] at hlast
    rcases List.mem_singleton.mp hw with rfl
    exact hlast
  | cons b t ih =>
    intro x hchain hlast w hw
    rcases List.chain_cons.mp hchain with ⟨⟨ds, hds, _⟩, hchain'⟩
    simp only [lastD] at hlast
    rcases List.mem_cons.mp hw with rfl | hw2
    · simp [hds]
    · exact ih b hchain' hlast w hw2

theorem searchG_eq_reach (h : Heap) (adj : Nat → Option (List Nat)) (base : Nat → Bool)
    (hadj : ∀ v, (adj v).isSome → v ∈ heapIds h) (x : Nat) :
    searchG adj base h.length x = true ↔
      ∃ v, Reaches adj x v ∧ (adj v).isSome ∧ base v = true := by
  constructor
  · exact searchG_sound adj base
  · rintro ⟨v, hr, hvs, hvb⟩
    rcases List.exists_chain_of_relationReflTransGen hr with ⟨l, hchain, hlast⟩
    rw [getLast_cons_getLastD] at hlast
    rcases chain_shorten_aux (Step adj) l.length l x (le_refl _) hchain with
      ⟨l', hc', hlast', hnd', hsub', _⟩
    rw [hlast] at hlast'
    have hall : ∀ w ∈ x :: l', (adj w).isSome :=
      chain_mem_isSome adj l' x hc' (by rw [hlast']; exact hvs)
    have hsubids : (x :: l') ⊆ heapIds h := fun w hw => hadj w (hall w hw)
    have hlenb : (x :: l').length ≤ (heapIds h).length :=
      (List.subperm_of_subset hnd' hsubids).length_le
    have hlen : l'.length < h.length := by
      have : (heapIds h).length = h.length := by simp [heapIds]
      simp only [List.length_cons] at hlenb
      omega
    exact searchG_of_chain adj base l' x h.length hc' hlen
      (by rw [hlast']; exact hvs) (by rw [hlast']; exact hvb)

theorem searchG_stable (h : Heap) (adj : Nat → Option (List Nat)) (base : Nat → Bool)
    (hadj : ∀ v, (adj v).isSome → v ∈ heapIds h) {m : Nat} (hm : h.length ≤ m) (x : Nat) :
    searchG adj base m x = searchG adj base h.length x := by
  by_cases hN : searchG adj base h.length x = true
  · rw [hN, searchG_mono adj base hm hN]
  · by_cases hM : searchG adj base m x = true
    · rcases searchG_sound adj base hM with ⟨v, hr, hvs, hvb⟩
      exact absurd ((searchG_eq_reach h adj base hadj x).mpr ⟨v, hr, hvs, hvb⟩) hN
    · rw [Bool.not_eq_true] at hN hM
      rw [hN, hM]

theorem searchG_unfold (h : Heap) (adj : Nat → Option (List Nat)) (base : Nat → Bool)
    (hadj : ∀ v, (adj v).isSome → v ∈ heapIds h) {x : Nat} {ds : List Nat}
    (hds : adj x = some ds) :
    searchG adj base h.length x =
      (base x || ds.any (fun y => searchG adj base h.length y)) := by
  by_cases hl : searchG adj base h.length x = true
  · rw [hl]
    rcases searchG_sound adj base hl with ⟨v, hr, hvs, hvb⟩
    rcases Relation.ReflTransGen.cases_head hr with rfl | ⟨c, hstep, hr'⟩
    · simp [hvb]
    · rcases hstep with ⟨ds', hds', hc⟩
      rw [hds] at hds'
      cases hds'
      have hcy : searchG adj base h.length c = true :=
        (searchG_eq_reach h adj base hadj c).mpr ⟨v, hr', hvs, hvb⟩
      symm
      rw [Bool.or_eq_true]
      exact .inr (List.any_eq_true.mpr ⟨c, hc, hcy⟩)
  · rw [Bool.not_eq_true] at hl
    rw [hl]
    symm
    rw [Bool.or_eq_false_iff]
    constructor
    · cases hbx : base x with
      | false => rfl
      | true =>
        exact absurd ((searchG_eq_reach h adj base hadj x).mpr
          ⟨x, Relation.ReflTransGen.refl, by simp [hds], hbx⟩) (by simp [hl])
    · rw [List.any_eq_false]
      intro y hy hsy
      rcases searchG_sound adj base hsy with ⟨v, hr, hvs, hvb⟩
      exact absurd ((searchG_eq_reach h adj base hadj x).mpr
        ⟨v, Relation.ReflTransGen.head ⟨ds, hds, hy⟩ hr, hvs, hvb⟩) (by simp [hl])

theorem reaches_update_from {adj adj' : Nat → Option (List Nat)} {u w : Nat}
    (hstep : ∀ a b, Step adj' a b ↔ Step adj a b ∨ (a = u ∧ b = w)) {x v : Nat}
    (hr : Reaches adj' x v) :
    Reaches adj x v ∨ (Reaches adj x u ∧ Reaches adj' w v) := by
  induction hr using Relation.ReflTransGen.head_induction_on with
  | refl => exact .inl Relation.ReflTransGen.refl
  | head hs _ ih =>
    rename_i a b _
    rcases (hstep a b).mp hs with hold | ⟨rfl, rfl⟩
    · rcases ih with hl | ⟨hu, hw⟩
      · exact .inl (Relation.ReflTransGen.head hold hl)
      · exact .inr ⟨Relation.ReflTransGen.head hold hu, hw⟩
    · rename_i hr'
      exact .inr ⟨Relation.ReflTransGen.refl, hr'⟩

theorem reaches_update_to {adj adj' : Nat → Option (List Nat)} {u w : Nat}
    (hstep : ∀ a b, Step adj' a b ↔ Step adj a b ∨ (a = u ∧ b = w)) {x v : Nat}
    (hr : Reaches adj' x v) :
    Reaches adj x v ∨ (Reaches adj' x u ∧ Reaches adj w v) := by
  induction hr with
  | refl => exact .inl Relation.ReflTransGen.refl
  | tail hxc hs ih =>
    rename_i c d
    rcases (hstep c d).mp hs with hold | ⟨rfl, rfl⟩
    · rcases ih with hl | ⟨hu, hw⟩
      · exact .inl (Relation.ReflTransGen.tail hl hold)
      · exact .inr ⟨hu, Relation.ReflTransGen.tail hw hold⟩
    · exact .inr ⟨hxc, Relation.ReflTransGen.refl⟩

theorem reaches_mono {adj adj' : Nat → Option (List Nat)}
    (hstep : ∀ a b, Step adj a b → Step adj' a b) {x v : Nat} (hr : Reaches adj x v) :
    Reaches adj' x v := by
  induction hr with
  | refl => exact Relation.ReflTransGen.refl
  | tail _ hs ih => exact Relation.ReflTransGen.tail ih (hstep _ _ hs)

theorem reachPlus_iff_head (adj : Nat → Option (List Nat)) (a b : Nat) :
    ReachPlus adj a b ↔ ∃ v, Step adj a v ∧ Reaches adj v b := by
  constructor
  · rintro ⟨v, hr, hs⟩
    rcases Relation.ReflTransGen.cases_head hr with rfl | ⟨c, hstep, hr'⟩
    · exact ⟨b, hs, Relation.ReflTransGen.refl⟩
    · exact ⟨c, hstep, Relation.ReflTransGen.tail hr' hs⟩
  · rintro ⟨v, hs, hr⟩
    rcases Relation.ReflTransGen.cases_tail hr with rfl | ⟨c, hr', hstep⟩
    · exact ⟨a, Relation.ReflTransGen.refl, hs⟩
    · exact ⟨c, Relation.ReflTransGen.head hs hr', hstep⟩

theorem reachPlus_trans {adj : Nat → Option (List Nat)} {a b c : Nat}
    (h1 : ReachPlus adj a b) (h2 : ReachPlus adj b c) : ReachPlus adj a c := by
  rcases h1 with ⟨v, hr1, hs1⟩
  rcases h2 with ⟨w, hr2, hs2⟩
  exact ⟨w, (hr1.tail hs1).trans hr2, hs2⟩

theorem reaches_of_reachPlus {adj : Nat → Option (List Nat)} {a b : Nat}
    (h1 : ReachPlus adj a b) : Reaches adj a b := by
  rcases h1 with ⟨v, hr, hs⟩
  exact hr.tail hs

theorem reachPlus_of_ne {adj : Nat → Option (List Nat)} {a b : Nat}
    (hr : Reaches adj a b) (hne : a ≠ b) : ReachPlus adj a b := by
  rcases Relation.ReflTransGen.cases_tail hr with rfl | ⟨c, hr', hstep⟩
  · exact absurd rfl hne
  · exact ⟨c, hr', hstep⟩

theorem childAdj_isSome_mem (h : Heap) : ∀ v, (childAdj h v).isSome → v ∈ heapIds h := by
  intro v hv
  rw [← lookupRole_isSome_iff]
  unfold childAdj at hv
  cases hl : lookupRole h v with
  | none => rw [hl] at hv; simp at hv
  | some r => simp [hl]

theorem parentAdj_isSome_mem (h : Heap) : ∀ v, (parentAdj h v).isSome → v ∈ heapIds h := by
  intro v hv
  rw [← lookupRole_isSome_iff]
  unfold parentAdj at hv
  cases hl : lookupRole h v with
  | none => rw [hl] at hv; simp at hv
  | some r => simp [hl]

theorem step_childAdj_iff (h : Heap) (a b : Nat) :
    Step (childAdj h) a b ↔ ∃ r, lookupRole h a = some r ∧ b ∈ childIds r := by
  constructor
  · rintro ⟨ds, hds, hb⟩
    unfold childAdj at hds
    cases hl : lookupRole h a with
    | none => rw [hl] at hds; simp at hds
    | some r =>
      rw [hl] at hds
      simp only [Option.map_some'] at hds
      cases hds
      exact ⟨r, rfl, hb⟩
  · rintro ⟨r, hl, hb⟩
    exact ⟨childIds r, by simp [childAdj, hl], hb⟩

theorem step_parentAdj_iff (h : Heap) (a b : Nat) :
    Step (parentAdj h) a b ↔ ∃ r, lookupRole h a = some r ∧ b ∈ parentIds r := by
  constructor
  · rintro ⟨ds, hds, hb⟩
    unfold parentAdj at hds
    cases hl : lookupRole h a with
    | none => rw [hl] at hds; simp at hds
    | some r =>
      rw [hl] at hds
      simp only [Option.map_some'] at hds
      cases hds
      exact ⟨r, rfl, hb⟩
  · rintro ⟨r, hl, hb⟩
    exact ⟨parentIds r, by simp [parentAdj, hl], hb⟩

theorem searchG_len_iff (h : Heap) (adj : Nat → Option (List Nat)) (base : Nat → Bool)
    (hadj : ∀ v, (adj v).isSome → v ∈ heapIds h)
    (hbase : ∀ v, base v = true → (adj v).isSome) (x : Nat) :
    searchG adj base h.length x = true ↔ ∃ v, Reaches adj x v ∧ base v = true := by
  rw [searchG_eq_reach h adj base hadj x]
  constructor
  · rintro ⟨v, hr, _, hb⟩
    exact ⟨v, hr, hb⟩
  · rintro ⟨v, hr, hb⟩
    exact ⟨v, hr, hbase v hb, hb⟩

theorem permBase_isSome {h : Heap} {a : String} {v : Nat} (hb : permBase h a v = true) :
    (childAdj h v).isSome := by
  unfold permBase at hb
  unfold childAdj
  cases hl : lookupRole h v with
  | none => rw [hl] at hb; simp at hb
  | some r => simp [hl]

theorem descBase_isSome {h : Heap} {n : String} {v : Nat} (hb : descBase h n v = true) :
    (childAdj h v).isSome := by
  unfold descBase at hb
  unfold childAdj
  cases hl : lookupRole h v with
  | none => rw [hl] at hb; simp at hb
  | some r => simp [hl]

theorem ancBase_isSome {h : Heap} {n : String} {v : Nat} (hb : ancBase h n v = true) :
    (parentAdj h v).isSome := by
  unfold ancBase at hb
  unfold parentAdj
  cases hl : lookupRole h v with
  | none => rw [hl] at hb; simp at hb
  | some r => simp [hl]

theorem hasPermission_iff_reach (h : Heap) (x : Nat) (a : String) :
    HasPermission h x a = true ↔
      ∃ v, Reaches (childAdj h) x v ∧ permBase h a v = true := by
  unfold HasPermission
  exact searchG_len_iff h _ _ (childAdj_isSome_mem h) (fun v => permBase_isSome) x

theorem hasDescendant_iff_reach (h : Heap) {x tid : Nat} {t : DefaultRole}
    (htid : lookupRole h tid = some t) :
    HasDescendant h x tid = true ↔
      ∃ v, Reaches (childAdj h) x v ∧ descBase h t.name v = true := by
  unfold HasDescendant
  rw [htid]
  exact searchG_len_iff h _ _ (childAdj_isSome_mem h) (fun v => descBase_isSome) x

theorem hasAncestor_iff_reach (h : Heap) {x tid : Nat} {t : DefaultRole}
    (htid : lookupRole h tid = some t) :
    HasAncestor h x tid = true ↔
      ∃ v, Reaches (parentAdj h) x v ∧ ancBase h t.name v = true := by
  unfold HasAncestor
  rw [htid]
  exact searchG_len_iff h _ _ (parentAdj_isSome_mem h) (fun v => ancBase_isSome) x

theorem wellFormed_child_ref {h : Heap} (hWF : WellFormed h) {x : Nat} {r : DefaultRole}
    (hx : lookupRole h x = some r) {e : String × Nat} (he : e ∈ r.children) :
    ∃ c, lookupRole h e.2 = some c ∧ c.name = e.1 := by
  have := ((hWF.2 (x, r) (lookupRole_mem hx)).1 e he)
  unfold refOkB at this
  cases hl : lookupRole h e.2 with
  | none => rw [hl] at this; simp at this
  | some c =>
    rw [hl] at this
    simp only [beq_iff_eq] at this
    exact ⟨c, rfl, this⟩

theorem wellFormed_parent_ref {h : Heap} (hWF : WellFormed h) {x : Nat} {r : DefaultRole}
    (hx : lookupRole h x = some r) {e : String × Nat} (he : e ∈ r.parents) :
    ∃ c, lookupRole h e.2 = some c ∧ c.name = e.1 := by
  have := ((hWF.2 (x, r) (lookupRole_mem hx)).2 e he)
  unfold refOkB at this
  cases hl : lookupRole h e.2 with
  | none => rw [hl] at this; simp at this
  | some c =>
    rw [hl] at this
    simp only [beq_iff_eq] at this
    exact ⟨c, rfl, this⟩

theorem namesInj_eq {h : Heap} (hInj : NamesInj h) {i j : Nat} {r s : DefaultRole}
    (hi : lookupRole h i = some r) (hj : lookupRole h j = some s)
    (hn : r.name = s.name) : i = j :=
  hInj (i, r) (lookupRole_mem hi) (j, s) (lookupRole_mem hj) hn

theorem descBase_iff_step {h : Heap} (hWF : WellFormed h) (hInj : NamesInj h)
    {tid : Nat} {t : DefaultRole} (htid : lookupRole h tid = some t) (v : Nat) :
    descBase h t.name v = true ↔ Step (childAdj h) v tid := by
  constructor
  · intro hb
    unfold descBase at hb
    cases hl : lookupRole h v with
    | none => rw [hl] at hb; simp at hb
    | some r =>
      rw [hl] at hb
      have : t.name ∈ childKeys r := by simpa using hb
      rcases List.mem_map.mp this with ⟨e, he, hkey⟩
      rcases wellFormed_child_ref hWF hl he with ⟨c, hc, hcname⟩
      have : e.2 = tid := namesInj_eq hInj hc htid (by rw [hcname, hkey])
      rw [step_childAdj_iff]
      exact ⟨r, hl, this ▸ List.mem_map_of_mem _ he⟩
  · intro hs
    rcases (step_childAdj_iff h v tid).mp hs with ⟨r, hl, hmem⟩
    rcases List.mem_map.mp hmem with ⟨e, he, hid⟩
    rcases wellFormed_child_ref hWF hl he with ⟨c, hc, hcname⟩
    rw [hid] at hc
    rw [htid] at hc
    cases hc
    unfold descBase
    rw [hl]
    have hk : t.name ∈ childKeys r := by
      rw [hcname]
      exact List.mem_map_of_mem _ he
    simpa using hk

theorem ancBase_iff_step {h : Heap} (hWF : WellFormed h) (hInj : NamesInj h)
    {tid : Nat} {t : DefaultRole} (htid : lookupRole h tid = some t) (v : Nat) :
    ancBase h t.name v = true ↔ Step (parentAdj h) v tid := by
  constructor
  · intro hb
    unfold ancBase at hb
    cases hl : lookupRole h v with
    | none => rw [hl] at hb; simp at hb
    | some r =>
      rw [hl] at hb
      have : t.name ∈ parentKeys r := by simpa using hb
      rcases List.mem_map.mp this with ⟨e, he, hkey⟩
      rcases wellFormed_parent_ref hWF hl he with ⟨c, hc, hcname⟩
      have : e.2 = tid := namesInj_eq hInj hc htid (by rw [hcname, hkey])
      rw [step_parentAdj_iff]
      exact ⟨r, hl, this ▸ List.mem_map_of_mem _ he⟩
  · intro hs
    rcases (step_parentAdj_iff h v tid).mp hs with ⟨r, hl, hmem⟩
    rcases List.mem_map.mp hmem with ⟨e, he, hid⟩
    rcases wellFormed_parent_ref hWF hl he with ⟨c, hc, hcname⟩
    rw [hid] at hc
    rw [htid] at hc
    cases hc
    unfold ancBase
    rw [hl]
    have hk : t.name ∈ parentKeys r := by
      rw [hcname]
      exact List.mem_map_of_mem _ he
    simpa using hk

theorem hasDescendant_iff_reachPlus {h : Heap} (hWF : WellFormed h) (hInj : NamesInj h)
    {x tid : Nat} {t : DefaultRole} (htid : lookupRole h tid = some t) :
    HasDescendant h x tid = true ↔ ReachPlus (childAdj h) x tid := by
  rw [hasDescendant_iff_reach h htid]
  unfold ReachPlus
  constructor
  · rintro ⟨v, hr, hb⟩
    exact ⟨v, hr, (descBase_iff_step hWF hInj htid v).mp hb⟩
  · rintro ⟨v, hr, hs⟩
    exact ⟨v, hr, (descBase_iff_step hWF hInj htid v).mpr hs⟩

theorem hasAncestor_iff_reachPlus {h : Heap} (hWF : WellFormed h) (hInj : NamesInj h)
    {x tid : Nat} {t : DefaultRole} (htid : lookupRole h tid = some t) :
    HasAncestor h x tid = true ↔ ReachPlus (parentAdj h) x tid := by
  rw [hasAncestor_iff_reach h htid]
  unfold ReachPlus
  constructor
  · rintro ⟨v, hr, hb⟩
    exact ⟨v, hr, (ancBase_iff_step hWF hInj htid v).mp hb⟩
  · rintro ⟨v, hr, hs⟩
    exact ⟨v, hr, (ancBase_iff_step hWF hInj htid v).mpr hs⟩

theorem step_flip {h : Heap} (hWF : WellFormed h) (hSym : SymmetricHeap h) (a b : Nat) :
    Step (parentAdj h) a b ↔ Step (childAdj h) b a := by
  constructor
  · intro hs
    rcases (step_parentAdj_iff h a b).mp hs with ⟨ra, hla, hmem⟩
    rcases List.mem_map.mp hmem with ⟨e, he, hid⟩
    rcases wellFormed_parent_ref hWF hla he with ⟨rb, hlb, hbname⟩
    rw [hid] at hlb
    have hent : (rb.name, b) ∈ ra.parents := by
      have : e = (rb.name, b) := by
        rcases e with ⟨k, v⟩
        simp only at hid hbname
        rw [← hbname, hid]
      rwa [this] at he
    have := (hSym (a, ra) (lookupRole_mem hla) (b, rb) (lookupRole_mem hlb)).mp hent
    rw [step_childAdj_iff]
    exact ⟨rb, hlb, List.mem_map_of_mem _ this⟩
  · intro hs
    rcases (step_childAdj_iff h b a).mp hs with ⟨rb, hlb, hmem⟩
    rcases List.mem_map.mp hmem with ⟨e, he, hid⟩
    rcases wellFormed_child_ref hWF hlb he with ⟨ra, hla, haname⟩
    rw [hid] at hla
    have hent : (ra.name, a) ∈ rb.children := by
      have : e = (ra.name, a) := by
        rcases e with ⟨k, v⟩
        simp only at hid haname
        rw [← haname, hid]
      rwa [this] at he
    have := (hSym (a, ra) (lookupRole_mem hla) (b, rb) (lookupRole_mem hlb)).mpr hent
    rw [step_parentAdj_iff]
    exact ⟨ra, hla, List.mem_map_of_mem _ this⟩

theorem reaches_flip_generic {R S : Nat → Nat → Prop} (hiff : ∀ a b, R a b ↔ S b a) :
    ∀ {x y : Nat}, Relation.ReflTransGen R x y → Relation.ReflTransGen S y x := by
  intro x y hr
  induction hr with
  | refl => exact Relation.ReflTransGen.refl
  | tail _ hs ih => exact Relation.ReflTransGen.head ((hiff _ _).mp hs) ih

theorem reachPlus_flip {h : Heap} (hWF : WellFormed h) (hSym : SymmetricHeap h) (a b : Nat) :
    ReachPlus (parentAdj h) a b ↔ ReachPlus (childAdj h) b a := by
  constructor
  · rintro ⟨v, hr, hs⟩
    rw [reachPlus_iff_head]
    exact ⟨v, (step_flip hWF hSym v b).mp hs,
      reaches_flip_generic (fun a b => step_flip hWF hSym a b) hr⟩
  · intro hp
    rcases (reachPlus_iff_head _ b a).mp hp with ⟨v, hs, hr⟩
    exact ⟨v, reaches_flip_generic (fun a b => (step_flip hWF hSym b a).symm) hr,
      (step_flip hWF hSym v b).mpr hs⟩

theorem hasAncestor_eq_hasDescendant {h : Heap} (hWF : WellFormed h) (hInj : NamesInj h)
    (hSym : SymmetricHeap h) {a b : Nat} {ra rb : DefaultRole}
    (hla : lookupRole h a = some ra) (hlb : lookupRole h b = some rb) :
    HasAncestor h a b = HasDescendant h b a := by
  rw [Bool.eq_iff_iff, hasAncestor_iff_reachPlus hWF hInj hlb,
    hasDescendant_iff_reachPlus hWF hInj hla]
  exact reachPlus_flip hWF hSym a b

theorem cycleAtB_iff (h : Heap) (z : Nat) :
    cycleAtB h z = true ↔ ReachPlus (childAdj h) z z := by
  unfold cycleAtB
  rw [searchG_len_iff h _ _ (childAdj_isSome_mem h) ?hbase z]
  case hbase =>
    intro v hb
    unfold childAdj
    cases hl : lookupRole h v with
    | none => rw [hl] at hb; simp at hb
    | some r => simp [hl]
  unfold ReachPlus
  constructor
  · rintro ⟨v, hr, hb⟩
    cases hl : lookupRole h v with
    | none => rw [hl] at hb; simp at hb
    | some r =>
      rw [hl] at hb
      refine ⟨v, hr, ?_⟩
      rw [step_childAdj_iff]
      exact ⟨r, hl, by simpa using hb⟩
  · rintro ⟨v, hr, hs⟩
    rcases (step_childAdj_iff h v z).mp hs with ⟨r, hl, hmem⟩
    exact ⟨v, hr, by rw [hl]; simpa using hmem⟩

theorem acyclicHeap_iff (h : Heap) :
    AcyclicHeap h ↔ ∀ x, ¬ ReachPlus (childAdj h) x x := by
  unfold AcyclicHeap
  constructor
  · intro hac x hp
    have hx : x ∈ heapIds h := by
      rcases (reachPlus_iff_head _ x x).mp hp with ⟨v, ⟨ds, hds, _⟩, _⟩
      exact childAdj_isSome_mem h x (by simp [hds])
    have := hac x hx
    rw [← cycleAtB_iff] at hp
    rw [this] at hp
    cases hp
  · intro hac x _
    cases hcy : cycleAtB h x with
    | false => rfl
    | true => exact absurd ((cycleAtB_iff h x).mp hcy) (hac x)

theorem acyclic_parentAdj {h : Heap} (hWF : WellFormed h) (hSym : SymmetricHeap h)
    (hAc : AcyclicHeap h) : ∀ x, ¬ ReachPlus (parentAdj h) x x := by
  intro x hp
  exact ((acyclicHeap_iff h).mp hAc x) ((reachPlus_flip hWF hSym x x).mp hp)

mutual

theorem geq_refl : ∀ e : GoError, geq e e = true
  | .deny => rfl
  | .roleNotFound => rfl
  | .invalidRole => rfl
  | .circularRef => rfl
  | .wrap a s => by simp [geq, geq_refl a]
  | .fmtMsg s => by simp [geq]
  | .join l => by simp [geq, geqList_refl l]
  | .recLimit => rfl
  | .absentRole => rfl

theorem geqList_refl : ∀ l : List GoError, geqList l l = true
  | [] => rfl
  | e :: es => by simp [geqList, geq_refl e, geqList_refl es]

end

theorem errorIs_self (e : GoError) : errorIs e e = true := by
  cases e <;> simp [errorIs, geq_refl]

theorem errorIs_join_mem {l : List GoError} {x t : GoError} (hx : x ∈ l)
    (ht : errorIs x t = true) : errorIs (.join l) t = true := by
  have : errorIsList l t = true := by
    induction l with
    | nil => cases hx
    | cons b bs ih =>
      rcases List.mem_cons.mp hx with rfl | hx2
      · simp [errorIsList, ht]
      · simp [errorIsList, ih hx2]
  simp [errorIs, this]

theorem runAssertions_all (rid : Nat) (a : String) :
    ∀ as : List Assertion, (∀ q ∈ as, q rid a = (true, none)) →
      runAssertions as rid a = (true, none) := by
  intro as
  induction as with
  | nil => intro _; rfl
  | cons q rest ih =>
    intro hall
    have hq : q rid a = (true, none) := hall q (List.mem_cons_self _ _)
    simp only [runAssertions, hq]
    simpa using ih (fun b hb => hall b (List.mem_cons.mpr (.inr hb)))

theorem runAssertions_fail (rid : Nat) (a : String) :
    ∀ (pre : List Assertion) (b : Assertion) (post : List Assertion),
      (∀ q ∈ pre, q rid a = (true, none)) →
      ((b rid a).1 = false ∨ (b rid a).2.isSome) →
      runAssertions (pre ++ b :: post) rid a = (false, (b rid a).2) := by
  intro pre
  induction pre with
  | nil =>
    intro b post _ hbad
    simp only [List.nil_append, runAssertions]
    rcases hbad with hb | hb
    · rw [hb]
      simp
    · rw [hb]
      simp
  | cons q rest ih =>
    intro b post hall hbad
    have hq : q rid a = (true, none) := hall q (List.mem_cons_self _ _)
    simp only [List.cons_append, runAssertions, hq]
    simpa using ih b post (fun p hp => hall p (List.mem_cons.mpr (.inr hp))) hbad

theorem runAssertionsRec_panic (rid : Nat) (a : String) :
    ∀ (pre : List AssertionRec) (b : AssertionRec) (post : List AssertionRec) (pv : PanicVal),
      (∀ q ∈ pre, q rid a = .normal true) →
      b rid a = .panicked pv →
      runAssertionsRec (pre ++ b :: post) rid a = (false, some (recoverErr pv)) := by
  intro pre
  induction pre with
  | nil =>
    intro b post pv _ hpanic
    simp only [List.nil_append, runAssertionsRec, hpanic]
  | cons q rest ih =>
    intro b post pv hall hpanic
    have hq : q rid a = .normal true := hall q (List.mem_cons_self _ _)
    simp only [List.cons_append, runAssertionsRec, hq]
    exact ih b post pv (fun p hp => hall p (List.mem_cons.mpr (.inr hp))) hpanic

theorem authorizeLoop_win (reg : RBAC) (h : Heap) (act : String) (asserts : List Assertion) :
    ∀ (pre : List String) (c : String) (post : List String) (e : GoError),
      (∀ b ∈ pre, ¬((IsGrantedE reg h (.byName b) act asserts).1 = true ∧
        (IsGrantedE reg h (.byName b) act asserts).2 = none)) →
      (IsGrantedE reg h (.byName c) act asserts).1 = true →
      (IsGrantedE reg h (.byName c) act asserts).2 = none →
      authorizeLoop reg h act asserts (pre ++ c :: post) e = (.allow, none, pre ++ [c]) := by
  intro pre
  induction pre with
  | nil =>
    intro c post e _ h1 h2
    simp only [List.nil_append, authorizeLoop, h1, h2]
    simp
  | cons b rest ih =>
    intro c post e hpre h1 h2
    have hb := hpre b (List.mem_cons_self _ _)
    have hcond : ((IsGrantedE reg h (.byName b) act asserts).1 &&
        (IsGrantedE reg h (.byName b) act asserts).2.isNone) = false := by
      cases hb1 : (IsGrantedE reg h (.byName b) act asserts).1 with
      | false => rfl
      | true =>
        cases hb2 : (IsGrantedE reg h (.byName b) act asserts).2 with
        | none => exact absurd ⟨hb1, hb2⟩ hb
        | some x => simp [hb2]
    simp only [List.cons_append, authorizeLoop, hcond, List.append_eq]
    rw [ih c post _ (fun p hp => hpre p (List.mem_cons.mpr (.inr hp))) h1 h2]
    simp

theorem authorizeLoop_nowin (reg : RBAC) (h : Heap) (act : String) (asserts : List Assertion) :
    ∀ (cs : List String) (e : GoError),
      (∀ c ∈ cs, ¬((IsGrantedE reg h (.byName c) act asserts).1 = true ∧
        (IsGrantedE reg h (.byName c) act asserts).2 = none)) →
      authorizeLoop reg h act asserts cs e =
        (.deny,
         some (cs.foldl (fun acc c => joinAcc acc (IsGrantedE reg h (.byName c) act asserts).2) e),
         cs) := by
  intro cs
  induction cs with
  | nil => intro e _; rfl
  | cons c rest ih =>
    intro e hall
    have hc := hall c (List.mem_cons_self _ _)
    have hcond : ((IsGrantedE reg h (.byName c) act asserts).1 &&
        (IsGrantedE reg h (.byName c) act asserts).2.isNone) = false := by
      cases hb1 : (IsGrantedE reg h (.byName c) act asserts).1 with
      | false => rfl
      | true =>
        cases hb2 : (IsGrantedE reg h (.byName c) act asserts).2 with
        | none => exact absurd ⟨hb1, hb2⟩ hc
        | some x => simp [hb2]
    simp only [authorizeLoop, hcond, List.append_eq]
    rw [ih _ (fun p hp => hall p (List.mem_cons.mpr (.inr hp)))]
    simp [List.foldl_cons]

theorem errLeaves_joinAcc (e : GoError) (x : Option GoError) :
    errLeaves (joinAcc e x) = errLeaves e ++ (x.toList.flatMap errLeaves) := by
  cases x with
  | none => simp [joinAcc, errLeaves, errLeavesList]
  | some y => simp [joinAcc, errLeaves, errLeavesList]

theorem errLeaves_foldl (f : String → Option GoError) :
    ∀ (cs : List String) (e : GoError),
      errLeaves (cs.foldl (fun acc c => joinAcc acc (f c)) e) =
        errLeaves e ++ (cs.filterMap f).flatMap errLeaves := by
  intro cs
  induction cs with
  | nil => intro e; simp
  | cons c rest ih =>
    intro e
    rw [List.foldl_cons, ih (joinAcc e (f c)), errLeaves_joinAcc]
    cases hfc : f c with
    | none => simp [List.filterMap_cons, hfc]
    | some x => simp [List.filterMap_cons, hfc]

theorem errorIs_joinAcc_left {e t : GoError} (x : Option GoError)
    (ht : errorIs e t = true) : errorIs (joinAcc e x) t = true := by
  cases x with
  | none => exact errorIs_join_mem (List.mem_singleton.mpr rfl) ht
  | some y => exact errorIs_join_mem (List.mem_cons_self _ _) ht

theorem errorIs_foldl (f : String → Option GoError) :
    ∀ (cs : List String) (e t : GoError),
      (errorIs e t = true ∨ ∃ c ∈ cs, f c = some t) →
      errorIs (cs.foldl (fun acc c => joinAcc acc (f c)) e) t = true := by
  intro cs
  induction cs with
  | nil =>
    intro e t hsrc
    rcases hsrc with hl | ⟨c, hc, _⟩
    · exact hl
    · cases hc
  | cons c rest ih =>
    intro e t hsrc
    rw [List.foldl_cons]
    apply ih
    rcases hsrc with hl | ⟨c', hc', hfc'⟩
    · exact .inl (errorIs_joinAcc_left _ hl)
    · rcases List.mem_cons.mp hc' with rfl | hc2
      · refine .inl ?_
        rw [hfc']
        exact @errorIs_join_mem [e, t] t t (by simp) (errorIs_self t)
      · exact .inr ⟨c', hc2, hfc'⟩

/-- C1: for a role identifier resolving to a registered role,
`IsGrantedE` follows the step semantics: a missing permission returns
`(false, none)` with no error; otherwise the assertions run in the
supplied order and the first assertion returning false or an explicit
error causes an immediate `(false, thatError-or-none)` — the
conclusion holds for every suffix `post`, so no later assertion is
evaluated — and `(true, none)` is returned exactly when every
assertion completes cleanly and true. -/
theorem c1_isGrantedE_step_semantics (reg : RBAC) (h : Heap) (v : RoleArg) (a : String)
    (assertions : List Assertion) (rid : Nat)
    (hres : HasRole reg h v = .ok true)
    (hrid : regLookup reg (roleString h v) = some rid) :
    (HasPermission h rid a = false → IsGrantedE reg h v a assertions = (false, none)) ∧
    (HasPermission h rid a = true →
      ((∀ pre (b : Assertion) post, assertions = pre ++ b :: post →
        (∀ q ∈ pre, q rid a = (true, none)) →
        ((b rid a).1 = false ∨ (b rid a).2.isSome) →
        IsGrantedE reg h v a assertions = (false, (b rid a).2)) ∧
      ((∀ q ∈ assertions, q rid a = (true, none)) →
        IsGrantedE reg h v a assertions = (true, none)))) := by
  constructor
  · intro hp
    simp only [IsGrantedE, hres, hrid, hp]
    simp
  · intro hp
    constructor
    · intro pre b post hsplit hpre hbad
      simp only [IsGrantedE, hres, hrid, hp]
      simp only [Bool.not_true, Bool.false_eq_true, if_false]
      rw [hsplit]
      exact runAssertions_fail rid a pre b post hpre hbad
    · intro hall
      simp only [IsGrantedE, hres, hrid, hp]
      simp only [Bool.not_true, Bool.false_eq_true, if_false]
      exact runAssertions_all rid a assertions hall

/-- Witness for C1 at a concrete registry: a missing permission is a
clean denial and an empty assertion list grants. -/
theorem c1_witness :
    IsGrantedE wReg wHeap (.byName "u") "zz" [] = (false, none) ∧
    IsGrantedE wReg wHeap (.byName "u") "*" [] = (true, none) := by
  have h1 := c1_isGrantedE_step_semantics wReg wHeap (.byName "u") "zz" [] 0 rfl rfl
  have h2 := c1_isGrantedE_step_semantics wReg wHeap (.byName "u") "*" [] 0 rfl rfl
  exact ⟨h1.1 rfl, (h2.2 rfl).2 (fun q hq => absurd hq (List.not_mem_nil q))⟩

/-- C3: in the recover-equipped `IsGrantedE`, a panic raised inside
an assertion's evaluation is caught and converted into a returned
error instead of propagating (the model returns normally), the
granted result is false, and — since the conclusion holds for every
suffix `post` — no later assertion is evaluated. -/
theorem c3_assertion_panic_recovered (reg : RBAC) (h : Heap) (v : RoleArg) (a : String)
    (pre : List AssertionRec) (b : AssertionRec) (post : List AssertionRec)
    (pv : PanicVal) (rid : Nat) (name : String)
    (hname : roleNameOf h v = .ok name)
    (hrid : regLookup reg name = some rid)
    (hperm : HasPermission h rid a = true)
    (hpre : ∀ q ∈ pre, q rid a = .normal true)
    (hpanic : b rid a = .panicked pv) :
    IsGrantedRec reg h v a (pre ++ b :: post) = (false, some (recoverErr pv)) := by
  simp only [IsGrantedRec, hname, hrid, hperm]
  simp only [Bool.not_true, Bool.false_eq_true, if_false]
  exact runAssertionsRec_panic rid a pre b post pv hpre hpanic

/-- Witness for C3: a panicking assertion on an otherwise-granted
check yields a denial carrying the original failure message, with a
later assertion never reached. -/
theorem c3_witness :
    IsGrantedRec wReg wHeap (.byName "u") "*" [wTrueAssert, wPanicAssert, wTrueAssert] =
      (false, some (.fmtMsg "boom")) := by
  have := c3_assertion_panic_recovered wReg wHeap (.byName "u") "*" [wTrueAssert]
    wPanicAssert [wTrueAssert] (.strVal "boom") 0 "u" rfl rfl rfl
    (fun q hq => by rcases List.mem_singleton.mp hq with rfl; rfl) rfl
  simpa using this

/-- C9: `HasRole` on a bare name is registry membership of the name;
on a role value it requires identity with the role actually stored
under that name, so a distinct role value sharing the name of a
registered role is reported absent. -/
theorem c9_hasRole_identity (reg : RBAC) (h : Heap) :
    (∀ s : String, (HasRole reg h (.byName s) = .ok true ↔ ∃ i, regLookup reg s = some i)) ∧
    (∀ vid v, lookupRole h vid = some v →
      ((HasRole reg h (.byValue vid) = .ok true ↔ regLookup reg v.name = some vid) ∧
       (∀ sid, regLookup reg v.name = some sid → sid ≠ vid →
         HasRole reg h (.byValue vid) = .ok false))) := by
  constructor
  · intro s
    simp only [HasRole]
    cases hreg : regLookup reg s with
    | none => simp
    | some i => simp
  · intro vid v hv
    have hstr : roleString h (.byValue vid) = v.name := by simp [roleString, hv]
    constructor
    · simp only [HasRole, hstr]
      cases hreg : regLookup reg v.name with
      | none => simp
      | some sid =>
        constructor
        · intro hok
          have hbeq : (sid == vid) = true := by
            have := hok
            simp only [Except.ok.injEq] at this
            exact this
          exact congrArg some (by simpa using hbeq)
        · intro hsome
          have : sid = vid := by simpa using hsome
          simp [this]
    · intro sid hreg hne
      simp only [HasRole, hstr, hreg]
      have : (sid == vid) = false := by simpa using hne
      rw [this]

/-- Witness for C9: a freshly constructed role sharing the name of
the registered role is absent; the stored role and the bare name are
present. -/
theorem c9_witness :
    HasRole wReg [(0, NewRole "u"), (1, NewRole "u")] (.byValue 1) = .ok false ∧
    HasRole wReg [(0, NewRole "u"), (1, NewRole "u")] (.byValue 0) = .ok true ∧
    HasRole wReg [(0, NewRole "u"), (1, NewRole "u")] (.byName "u") = .ok true := by
  have hmain := c9_hasRole_identity wReg [(0, NewRole "u"), (1, NewRole "u")]
  refine ⟨(hmain.2 1 (NewRole "u") rfl).2 0 rfl (by decide), ?_, ?_⟩
  · exact ((hmain.2 0 (NewRole "u") rfl).1).mpr rfl
  · exact (hmain.1 "u").mpr ⟨0, rfl⟩

/-- C2: `Authorize` denies with the bare deny sentinel and invokes
`IsGrantedE` for no candidate (empty trace) when the target is nil or
has an empty action or the claims or subject are nil; otherwise the
candidates are the subject's identifier followed by its role names in
order, and the first candidate granted cleanly wins with `(allow,
none)`, the trace stopping at it so every remaining candidate is
skipped. -/
theorem c2_authorize_candidates (reg : RBAC) (h : Heap) :
    (∀ (claims : Option Claims) (target : Option Target),
      (target = none ∨ (∃ t, target = some t ∧ t.action = "") ∨ claims = none ∨
        (∃ cl, claims = some cl ∧ cl.subject = none)) →
      Authorize reg h claims target = (.deny, some .deny, [])) ∧
    (∀ (cl : Claims) (sub : Subject) (t : Target), cl.subject = some sub → t.action ≠ "" →
      ∀ pre c post, sub.identifier :: sub.roles = pre ++ c :: post →
        (∀ b ∈ pre, ¬((IsGrantedE reg h (.byName b) t.action t.assertions).1 = true ∧
          (IsGrantedE reg h (.byName b) t.action t.assertions).2 = none)) →
        (IsGrantedE reg h (.byName c) t.action t.assertions).1 = true →
        (IsGrantedE reg h (.byName c) t.action t.assertions).2 = none →
        Authorize reg h (some cl) (some t) = (.allow, none, pre ++ [c])) := by
  constructor
  · intro claims target hearly
    rcases hearly with rfl | ⟨t, rfl, hact⟩ | rfl | ⟨cl, rfl, hsub⟩
    · rfl
    · simp [Authorize, hact]
    · cases target with
      | none => rfl
      | some t =>
        by_cases hact : t.action = "" <;> simp [Authorize, hact]
    · cases target with
      | none => rfl
      | some t =>
        by_cases hact : t.action = "" <;> simp [Authorize, hact, hsub]
  · intro cl sub t hsub hact pre c post hsplit hpre h1 h2
    simp only [Authorize, if_neg hact, hsub]
    rw [hsplit]
    exact authorizeLoop_win reg h t.action t.assertions pre c post .deny hpre h1 h2

/-- Witness for C2: the nil-target guard, and a subject whose
unregistered identifier is tried first and whose registered role name
then wins, with the trace recording exactly those two candidates. -/
theorem c2_witness :
    Authorize wReg wHeap (some c2Claims) none = (.deny, some .deny, []) ∧
    Authorize wReg wHeap (some c2Claims) (some c2Target) = (.allow, none, ["z", "u"]) := by
  have hmain := c2_authorize_candidates wReg wHeap
  refine ⟨hmain.1 (some c2Claims) none (.inl rfl), ?_⟩
  have := hmain.2 c2Claims c2Subject c2Target rfl (by decide) ["z"] "u" [] rfl
    (fun b hb => by
      rcases List.mem_singleton.mp hb with rfl
      intro hcon
      have : (IsGrantedE wReg wHeap (.byName "z") c2Target.action c2Target.assertions).1 = false := rfl
      rw [this] at hcon
      cases hcon.1)
    rfl rfl
  simpa using this

/-- C8: when no candidate yields `(true, none)`, `Authorize` returns
`deny` and an error whose join leaves are the deny sentinel followed
by every candidate's non-nil error in order (none discarded), and
every candidate error keeps a testable identity inside the combined
error (`errors.Is`). -/
theorem c8_authorize_error_accumulation (reg : RBAC) (h : Heap) (cl : Claims) (sub : Subject)
    (t : Target) (hsub : cl.subject = some sub) (hact : t.action ≠ "")
    (hnowin : ∀ c ∈ sub.identifier :: sub.roles,
      ¬((IsGrantedE reg h (.byName c) t.action t.assertions).1 = true ∧
        (IsGrantedE reg h (.byName c) t.action t.assertions).2 = none)) :
    ∃ E, Authorize reg h (some cl) (some t) = (.deny, some E, sub.identifier :: sub.roles) ∧
      errLeaves E = .deny ::
        ((sub.identifier :: sub.roles).filterMap
          (fun c => (IsGrantedE reg h (.byName c) t.action t.assertions).2)).flatMap errLeaves ∧
      (∀ ce, (∃ c ∈ sub.identifier :: sub.roles,
          (IsGrantedE reg h (.byName c) t.action t.assertions).2 = some ce) →
        errorIs E ce = true) := by
  refine ⟨(sub.identifier :: sub.roles).foldl
    (fun acc c => joinAcc acc (IsGrantedE reg h (.byName c) t.action t.assertions).2) .deny,
    ?_, ?_, ?_⟩
  · simp only [Authorize, if_neg hact, hsub]
    exact authorizeLoop_nowin reg h t.action t.assertions (sub.identifier :: sub.roles) .deny hnowin
  · rw [errLeaves_foldl]
    rfl
  · intro ce ⟨c, hc, hce⟩
    exact errorIs_foldl _ (sub.identifier :: sub.roles) .deny ce (.inr ⟨c, hc, hce⟩)

/-- Witness for C8 at a concrete denial with one erroring candidate:
the unknown role's error is preserved in the combined error. -/
theorem c8_witness :
    ∃ E, Authorize wReg wHeap (some ⟨some ⟨"nope", []⟩⟩) (some c8Target) =
        (.deny, some E, ["nope"]) ∧
      errLeaves E = [.deny, .wrap .roleNotFound "nope"] ∧
      errorIs E (.wrap .roleNotFound "nope") = true := by
  rcases c8_authorize_error_accumulation wReg wHeap ⟨some ⟨"nope", []⟩⟩ ⟨"nope", []⟩ c8Target rfl
    (by decide)
    (fun c hc => by
      rcases List.mem_singleton.mp hc with rfl
      intro hcon
      have : (IsGrantedE wReg wHeap (.byName "nope") c8Target.action c8Target.assertions).2 =
          some (.wrap .roleNotFound "nope") := rfl
      rw [this] at hcon
      cases hcon.2) with ⟨E, hE, hleaves, his⟩
  refine ⟨E, hE, ?_, his _ ⟨"nope", by simp, rfl⟩⟩
  rw [hleaves]
  rfl

/-- Counterexample to C8's final clause as stated: with one
candidate that yields `(false, none)` — no candidate error at all —
the returned error is a join wrapper around the deny sentinel, not
the sentinel value itself. -/
theorem c8_counterexample :
    Authorize wReg wHeap (some c8Claims) (some c8Target) =
      (.deny, some (.join [.deny]), ["u"]) ∧
    IsGrantedE wReg wHeap (.byName "u") "zz" [] = (false, none) ∧
    GoError.join [.deny] ≠ GoError.deny := by
  refine ⟨rfl, rfl, ?_⟩
  intro hcontra
  cases hcontra

theorem addPerm_rePerms (r : DefaultRole) (p : String) :
    (addPerm r p).rePermissions = r.rePermissions ++ (compile p).toList := by
  unfold addPerm
  cases hc : compile p with
  | some re => simp
  | none =>
    by_cases hmem : p ∈ r.permissions
    · rw [if_pos (by simpa using hmem)]
      simp
    · rw [if_neg (by simpa using hmem)]
      simp

theorem addPerm_perms_mem (r : DefaultRole) (p a : String) :
    a ∈ (addPerm r p).permissions ↔ a ∈ r.permissions ∨ (compile p = none ∧ a = p) := by
  unfold addPerm
  cases hc : compile p with
  | some re => simp
  | none =>
    by_cases hmem : p ∈ r.permissions
    · rw [if_pos (by simpa using hmem)]
      constructor
      · exact .inl
      · rintro (ha | ⟨_, rfl⟩)
        · exact ha
        · exact hmem
    · rw [if_neg (by simpa using hmem)]
      simp [List.mem_append]

theorem addPerm_children (r : DefaultRole) (p : String) :
    (addPerm r p).children = r.children := by
  unfold addPerm
  cases compile p with
  | some re => rfl
  | none =>
    by_cases hmem : p ∈ r.permissions
    · rw [if_pos (by simpa using hmem)]
    · rw [if_neg (by simpa using hmem)]

theorem addPermissions_rePerms :
    ∀ (specs : List String) (r : DefaultRole),
      (AddPermissions r specs).rePermissions = r.rePermissions ++ specs.filterMap compile := by
  intro specs
  induction specs with
  | nil => intro r; simp [AddPermissions]
  | cons s rest ih =>
    intro r
    show (AddPermissions (addPerm r s) rest).rePermissions = _
    rw [ih (addPerm r s), addPerm_rePerms, List.filterMap_cons]
    cases compile s <;> simp

theorem addPermissions_perms_mem :
    ∀ (specs : List String) (r : DefaultRole) (a : String),
      a ∈ (AddPermissions r specs).permissions ↔
        a ∈ r.permissions ∨ ∃ s ∈ specs, compile s = none ∧ a = s := by
  intro specs
  induction specs with
  | nil => intro r a; simp [AddPermissions]
  | cons s rest ih =>
    intro r a
    show a ∈ (AddPermissions (addPerm r s) rest).permissions ↔ _
    rw [ih (addPerm r s) a, addPerm_perms_mem]
    constructor
    · rintro ((ha | ⟨hc, heq⟩) | ⟨s', hs', hc', heq⟩)
      · exact .inl ha
      · exact .inr ⟨s, List.mem_cons_self _ _, hc, heq⟩
      · exact .inr ⟨s', List.mem_cons.mpr (.inr hs'), hc', heq⟩
    · rintro (ha | ⟨s', hs', hc', heq⟩)
      · exact .inl (.inl ha)
      · rcases List.mem_cons.mp hs' with rfl | hs2
        · exact .inl (.inr ⟨hc', heq⟩)
        · exact .inr ⟨s', hs2, hc', heq⟩

theorem addPermissions_children :
    ∀ (specs : List String) (r : DefaultRole),
      (AddPermissions r specs).children = r.children := by
  intro specs
  induction specs with
  | nil => intro r; rfl
  | cons s rest ih =>
    intro r
    show (AddPermissions (addPerm r s) rest).children = _
    rw [ih (addPerm r s), addPerm_children]

theorem hasPermission_unfold (h : Heap) {x : Nat} {r : DefaultRole}
    (hx : lookupRole h x = some r) (a : String) :
    HasPermission h x a =
      (permBase h a x || (childIds r).any (fun c => HasPermission h c a)) := by
  unfold HasPermission
  exact searchG_unfold h _ _ (childAdj_isSome_mem h) (by simp [childAdj, hx])

theorem matchHereF_lit :
    ∀ (n : Nat) (cs s : List Char), cs.length + s.length < n →
      (matchHereF n (litRegex cs) s = true ↔ ∃ w, s = cs ++ w) := by
  intro n
  induction n with
  | zero => intro cs s hlt; omega
  | succ k ih =>
    intro cs s hlt
    cases cs with
    | nil =>
      show matchHereF (k + 1) [] s = true ↔ _
      simp [matchHereF]
    | cons c cs' =>
      cases s with
      | nil =>
        show matchHereF (k + 1) (RPiece.once (RAtom.rchar c) :: litRegex cs') [] = true ↔ _
        simp [matchHereF]
      | cons d s' =>
        show (atomMatch (.rchar c) d && matchHereF k (litRegex cs') s') = true ↔ _
        rw [Bool.and_eq_true, ih cs' s' (by simp at hlt ⊢; omega)]
        constructor
        · rintro ⟨hcd, w, rfl⟩
          have hc : c = d := by simpa [atomMatch] using hcd
          exact ⟨w, by simp [hc]⟩
        · rintro ⟨w, hw⟩
          rw [List.cons_append] at hw
          injection hw with h1 h2
          exact ⟨by simp [atomMatch, h1], w, h2⟩

theorem matchHere_lit (cs s : List Char) :
    matchHere (litRegex cs) s = true ↔ ∃ w, s = cs ++ w := by
  apply matchHereF_lit
  simp [litRegex]

theorem searchFrom_lit :
    ∀ (s cs : List Char), searchFrom (litRegex cs) s = true ↔ ∃ u w, s = u ++ cs ++ w := by
  intro s
  induction s with
  | nil =>
    intro cs
    have hstep : searchFrom (litRegex cs) [] = matchHere (litRegex cs) [] := rfl
    rw [hstep, matchHere_lit]
    constructor
    · rintro ⟨w, hw⟩
      exact ⟨[], w, by simpa using hw⟩
    · rintro ⟨u, w, hw⟩
      rcases List.append_eq_nil.mp hw.symm with ⟨h0, rfl⟩
      rcases List.append_eq_nil.mp h0 with ⟨rfl, rfl⟩
      exact ⟨[], rfl⟩
  | cons c t ih =>
    intro cs
    have hstep : searchFrom (litRegex cs) (c :: t) =
        (matchHere (litRegex cs) (c :: t) || searchFrom (litRegex cs) t) := rfl
    rw [hstep, Bool.or_eq_true, matchHere_lit, ih cs]
    constructor
    · rintro (⟨w, hw⟩ | ⟨u, w, hw⟩)
      · exact ⟨[], w, by simpa using hw⟩
      · exact ⟨c :: u, w, by simp [hw]⟩
    · rintro ⟨u, w, hw⟩
      cases u with
      | nil => exact .inl ⟨w, by simpa using hw⟩
      | cons c' u' =>
        rw [List.cons_append, List.cons_append] at hw
        injection hw with h1 h2
        exact .inr ⟨u', w, h2⟩

/-- C4: for a role whose specifiers were stored via `AddPermissions`,
`HasPermission` answers true exactly when the action equals a
specifier that failed compilation, or some compiled specifier matches
it by unanchored search, or some child recursively answers true;
`"*"` fails compilation (hence matches only the literal query `"*"`),
and the compiled literal specifier `"bar"` matches exactly the
queries containing `bar` as a substring. -/
theorem c4_hasPermission_matching (h : Heap) (x : Nat) (r0 : DefaultRole)
    (specs : List String) (a : String) (r : DefaultRole)
    (hr : lookupRole h x = some r)
    (hbuilt : r = AddPermissions r0 specs)
    (hp0 : r0.permissions = []) (hre0 : r0.rePermissions = []) :
    (HasPermission h x a = true ↔
      ((∃ s ∈ specs, compile s = none ∧ a = s) ∨
       (∃ s ∈ specs, ∃ re, compile s = some re ∧ matchUnanchored re a = true) ∨
       (∃ c ∈ childIds r, HasPermission h c a = true))) ∧
    compile "*" = none ∧
    (∃ re, compile "bar" = some re ∧
      ∀ s : String, matchUnanchored re s = true ↔
        ∃ u w, s.data = u ++ ('b' :: 'a' :: 'r' :: []) ++ w) := by
  refine ⟨?_, rfl, ⟨litRegex ('b' :: 'a' :: 'r' :: []), rfl, ?_⟩⟩
  · rw [hasPermission_unfold h hr a, Bool.or_eq_true, List.any_eq_true]
    have hbase : permBase h a x = true ↔
        ((∃ s ∈ specs, compile s = none ∧ a = s) ∨
         (∃ s ∈ specs, ∃ re, compile s = some re ∧ matchUnanchored re a = true)) := by
      unfold permBase
      rw [hr, Bool.or_eq_true]
      constructor
      · rintro (hlit | hre)
        · refine .inl ?_
          have := (addPermissions_perms_mem specs r0 a).mp (by
            rw [← hbuilt]
            simpa using hlit)
          rcases this with ha | ⟨s1, hs, hc, heq⟩
          · rw [hp0] at ha
            cases ha
          · exact ⟨s1, hs, hc, heq⟩
        · refine .inr ?_
          rcases List.any_eq_true.mp hre with ⟨re, hmem, hmatch⟩
          rw [hbuilt, addPermissions_rePerms, hre0, List.nil_append] at hmem
          rcases List.mem_filterMap.mp hmem with ⟨s, hs, hc⟩
          exact ⟨s, hs, re, hc, hmatch⟩
      · rintro (⟨s1, hs, hc, heq⟩ | ⟨s1, hs, re, hc, hmatch⟩)
        · refine .inl ?_
          have : a ∈ r.permissions := by
            rw [hbuilt]
            exact (addPermissions_perms_mem specs r0 a).mpr (.inr ⟨s1, hs, hc, heq⟩)
          simpa using this
        · refine .inr ?_
          refine List.any_eq_true.mpr ⟨re, ?_, hmatch⟩
          rw [hbuilt, addPermissions_rePerms, hre0, List.nil_append]
          exact List.mem_filterMap.mpr ⟨s1, hs, hc⟩
    rw [hbase]
    exact or_assoc
  · intro s
    unfold matchUnanchored
    rw [searchFrom_lit]

/-- Witness for C4: `"bar"` as a compiled specifier matches a query
containing it as a substring, `"*"` stored literally matches only the
query `"*"`, and an unrelated query is refused. -/
theorem c4_witness :
    HasPermission c4Heap 0 "xxbarzz" = true ∧
    HasPermission c4Heap 0 "*" = true ∧
    HasPermission c4Heap 0 "zz" = false := by
  have h1 := c4_hasPermission_matching c4Heap 0 (NewRole "p") ["bar", "*"] "xxbarzz" c4Role
    rfl rfl rfl rfl
  have h2 := c4_hasPermission_matching c4Heap 0 (NewRole "p") ["bar", "*"] "*" c4Role
    rfl rfl rfl rfl
  refine ⟨?_, ?_, rfl⟩
  · exact (h1.1).mpr (.inr (.inl ⟨"bar", by simp, litRegex ('b' :: 'a' :: 'r' :: []), rfl, rfl⟩))
  · exact (h2.1).mpr (.inl ⟨"*", by simp, rfl, rfl⟩)

theorem mem_permissionsF (h : Heap) (p : String) :
    ∀ (n x : Nat), p ∈ PermissionsF h n x true ↔
      searchG (childAdj h) (litBase h p) n x = true := by
  intro n
  induction n with
  | zero => intro x; simp [PermissionsF, searchG]
  | succ k ih =>
    intro x
    show p ∈ (match lookupRole h x with
      | none => []
      | some r => (r.permissions ++ (childIds r).flatMap (fun c => PermissionsF h k c true)).dedup) ↔ _
    cases hl : lookupRole h x with
    | none =>
      simp only [searchG, childAdj, hl, Option.map_none']
      simp
    | some r =>
      simp only [searchG, childAdj, hl, Option.map_some']
      rw [List.mem_dedup, List.mem_append, Bool.or_eq_true, List.any_eq_true]
      constructor
      · rintro (hown | hch)
        · exact .inl (by simp [litBase, hl, hown])
        · rcases List.mem_flatMap.mp hch with ⟨c, hc, hpc⟩
          exact .inr ⟨c, hc, (ih c).mp hpc⟩
      · rintro (hown | ⟨c, hc, hsc⟩)
        · refine .inl ?_
          have : p ∈ r.permissions := by simpa [litBase, hl] using hown
          exact this
        · exact .inr (List.mem_flatMap.mpr ⟨c, hc, (ih c).mpr hsc⟩)

theorem litBase_isSome {h : Heap} {p : String} {v : Nat} (hb : litBase h p v = true) :
    (childAdj h v).isSome := by
  unfold litBase at hb
  unfold childAdj
  cases hl : lookupRole h v with
  | none => rw [hl] at hb; simp at hb
  | some r => simp [hl]

theorem mem_permissions_iff (h : Heap) (p : String) (x : Nat) :
    p ∈ Permissions h x true ↔
      ∃ v, Reaches (childAdj h) x v ∧ litBase h p v = true := by
  unfold Permissions
  rw [mem_permissionsF]
  exact searchG_len_iff h _ _ (childAdj_isSome_mem h) (fun v => litBase_isSome) x

/-- C5: for a descendant `B` of `A`, `A.Permissions(true)` contains
every member of `B.Permissions(true)`; the result of `Permissions` is
deduplicated; and `HasPermission` consults only the role itself and
its descendants — it answers true exactly when a role in the
descendant closure matches, so a permission held only by an ancestor
is invisible. -/
theorem c5_permission_widening (h : Heap) (hWF : WellFormed h) (hInj : NamesInj h)
    (A B : Nat) (tB : DefaultRole) (hB : lookupRole h B = some tB)
    (hdesc : HasDescendant h A B = true) :
    (∀ p, p ∈ Permissions h B true → p ∈ Permissions h A true) ∧
    (∀ x b, (Permissions h x b).Nodup) ∧
    (∀ a, HasPermission h B a = true ↔
      ∃ v, (v = B ∨ ReachPlus (childAdj h) B v) ∧ permBase h a v = true) := by
  refine ⟨?_, ?_, ?_⟩
  · intro p hp
    rcases (mem_permissions_iff h p B).mp hp with ⟨v, hr, hb⟩
    have hAB : ReachPlus (childAdj h) A B :=
      (hasDescendant_iff_reachPlus hWF hInj hB).mp hdesc
    exact (mem_permissions_iff h p A).mpr ⟨v, (reaches_of_reachPlus hAB).trans hr, hb⟩
  · intro x b
    unfold Permissions
    cases hn : h.length with
    | zero => exact List.nodup_nil
    | succ k =>
      show (match lookupRole h x with
        | none => []
        | some r => if b then _ else r.permissions.dedup).Nodup
      cases lookupRole h x with
      | none => exact List.nodup_nil
      | some r => cases b <;> simp [List.nodup_dedup]
  · intro a
    rw [hasPermission_iff_reach h B a]
    constructor
    · rintro ⟨v, hr, hb⟩
      by_cases hv : v = B
      · exact ⟨v, .inl hv, hb⟩
      · exact ⟨v, .inr (reachPlus_of_ne hr (Ne.symm hv)), hb⟩
    · rintro ⟨v, hv | hv, hb⟩
      · exact ⟨v, hv ▸ Relation.ReflTransGen.refl, hb⟩
      · exact ⟨v, reaches_of_reachPlus hv, hb⟩

/-- Witness for C5: the child's literal specifier appears in the
parent's recursive permission set, the result is duplicate-free, and
the parent-only specifier `"("` is invisible to the child. -/
theorem c5_witness :
    "*" ∈ Permissions c5Heap 0 true ∧
    (Permissions c5Heap 1 true).Nodup ∧
    HasPermission c5Heap 1 "(" = false := by
  have hmain := c5_permission_widening c5Heap (by decide) (by decide) 0 1 _ rfl rfl
  refine ⟨hmain.1 "*" (by decide), hmain.2.1 1 true, rfl⟩

/-- C7: cycle prevention is transitive — when `A` is an ancestor of
`B` and `B` an ancestor of `C`, the call `C.AddChild(A)` fails with
the circular-reference error and leaves the store untouched; and
symmetrically `AddParent(p)` fails with circular-reference, leaving
the store untouched, whenever `p` is already a (transitive)
descendant of the receiver. -/
theorem c7_transitive_cycle_prevention (h : Heap) (hWF : WellFormed h) (hInj : NamesInj h)
    (A B C : Nat) (ra rc : DefaultRole)
    (hA : lookupRole h A = some ra) (hC : lookupRole h C = some rc)
    (hAB : HasAncestor h B A = true) (hBC : HasAncestor h C B = true) :
    AddChild h C A = (h, some (.wrap .circularRef ra.name)) ∧
    (∀ r p pr, lookupRole h p = some pr → HasDescendant h r p = true →
      AddParent h r p = (h, some (.wrap .circularRef pr.name))) := by
  constructor
  · have hrB : ∃ rb, lookupRole h B = some rb := by
      rcases (hasAncestor_iff_reach h hA).mp hAB with ⟨v, hr, hb⟩
      rcases Relation.ReflTransGen.cases_head hr with rfl | ⟨c, ⟨ds, hds, _⟩, _⟩
      · rcases Option.isSome_iff_exists.mp (ancBase_isSome hb) with ⟨ds, hds⟩
        unfold parentAdj at hds
        cases hl : lookupRole h B with
        | none => rw [hl] at hds; simp at hds
        | some rb => exact ⟨rb, rfl⟩
      · unfold parentAdj at hds
        cases hl : lookupRole h B with
        | none => rw [hl] at hds; simp at hds
        | some rb => exact ⟨rb, rfl⟩
    rcases hrB with ⟨rb, hBl⟩
    have hCA : HasAncestor h C A = true := by
      rw [hasAncestor_iff_reachPlus hWF hInj hA]
      exact reachPlus_trans
        ((hasAncestor_iff_reachPlus hWF hInj hBl).mp hBC)
        ((hasAncestor_iff_reachPlus hWF hInj hA).mp hAB)
    show addChildF 3 h C A = _
    simp only [addChildF, hC, hA, hCA, if_true]
  · intro r p pr hp hdesc
    have hrl : ∃ rr, lookupRole h r = some rr := by
      unfold HasDescendant at hdesc
      rw [hp] at hdesc
      rcases searchG_sound _ _ hdesc with ⟨v, hreach, hvs, hvb⟩
      rcases Relation.ReflTransGen.cases_head hreach with rfl | ⟨c, ⟨ds, hds, _⟩, _⟩
      · unfold childAdj at hvs
        cases hl : lookupRole h r with
        | none => rw [hl] at hvs; simp at hvs
        | some rr => exact ⟨rr, rfl⟩
      · unfold childAdj at hds
        cases hl : lookupRole h r with
        | none => rw [hl] at hds; simp at hds
        | some rr => exact ⟨rr, rfl⟩
    rcases hrl with ⟨rr, hrl⟩
    show addParentF 3 h r p = _
    simp only [addParentF, hrl, hp, hdesc, if_true]

/-- Witness for C7 on the chain `a` → `b` → `c`: `c.AddChild(a)`
fails with circular-reference, untouched store. -/
theorem c7_witness :
    AddChild c7Heap 2 0 = (c7Heap, some (.wrap .circularRef "a")) := by
  have hmain := c7_transitive_cycle_prevention c7Heap (by decide) (by decide) 0 1 2
    _ _ rfl rfl rfl rfl
  exact hmain.1

theorem hasAncestor_unfold (h : Heap) {x : Nat} {r : DefaultRole} {tid : Nat} {t : DefaultRole}
    (hx : lookupRole h x = some r) (ht : lookupRole h tid = some t) :
    HasAncestor h x tid =
      (ancBase h t.name x || (parentIds r).any (fun p => HasAncestor h p tid)) := by
  simp only [HasAncestor, ht]
  exact searchG_unfold h _ _ (parentAdj_isSome_mem h) (by simp [parentAdj, hx])

theorem hasDescendant_unfold (h : Heap) {x : Nat} {r : DefaultRole} {tid : Nat} {t : DefaultRole}
    (hx : lookupRole h x = some r) (ht : lookupRole h tid = some t) :
    HasDescendant h x tid =
      (descBase h t.name x || (childIds r).any (fun c => HasDescendant h c tid)) := by
  simp only [HasDescendant, ht]
  exact searchG_unfold h _ _ (childAdj_isSome_mem h) (by simp [childAdj, hx])

theorem any_congr_mem {l : List Nat} {f g : Nat → Bool} (hfg : ∀ a ∈ l, f a = g a) :
    l.any f = l.any g := by
  induction l with
  | nil => rfl
  | cons a t ih =>
    simp only [List.any_cons]
    rw [hfg a (List.mem_cons_self _ _), ih (fun b hb => hfg b (List.mem_cons.mpr (.inr hb)))]

theorem solution_unique (h : Heap) (adjSel : DefaultRole → List Nat) (base : Nat → Bool)
    (adj : Nat → Option (List Nat)) (hadjdef : ∀ i, adj i = (lookupRole h i).map adjSel)
    (hrefs : ∀ x r, lookupRole h x = some r → ∀ y ∈ adjSel r, (lookupRole h y).isSome)
    (hacyc : ∀ x, ¬ ReachPlus adj x x)
    (f g : Nat → Bool) (hf : SolWith h adjSel base f) (hg : SolWith h adjSel base g) :
    ∀ x, (lookupRole h x).isSome → f x = g x := by
  classical
  let S : Nat → Finset Nat := fun x =>
    (heapIds h).toFinset.filter (fun z => z = x ∨ Reaches adj x z)
  have hstep_lt : ∀ x y r, lookupRole h x = some r → y ∈ adjSel r →
      (S y).card < (S x).card := by
    intro x y r hr hy
    have hstep : Step adj x y := ⟨adjSel r, by rw [hadjdef x, hr]; rfl, hy⟩
    apply Finset.card_lt_card
    rw [Finset.ssubset_def]
    constructor
    · intro z hz
      rcases Finset.mem_filter.mp hz with ⟨hzids, hz2⟩
      refine Finset.mem_filter.mpr ⟨hzids, .inr ?_⟩
      rcases hz2 with rfl | hz3
      · exact Relation.ReflTransGen.single hstep
      · exact (Relation.ReflTransGen.single hstep).trans hz3
    · intro hsub
      have hxmem : x ∈ S x := by
        refine Finset.mem_filter.mpr ⟨?_, .inl rfl⟩
        exact List.mem_toFinset.mpr ((lookupRole_isSome_iff h x).mp (by simp [hr]))
      have hxy := Finset.mem_filter.mp (hsub hxmem)
      rcases hxy.2 with rfl | hyx
      · exact hacyc x ⟨x, Relation.ReflTransGen.refl, hstep⟩
      · exact hacyc x ((reachPlus_iff_head adj x x).mpr ⟨y, hstep, hyx⟩)
  have main : ∀ n x, (S x).card = n → (lookupRole h x).isSome → f x = g x := by
    intro n
    induction n using Nat.strong_induction_on with
    | _ n ih =>
      intro x hcard hx
      rcases Option.isSome_iff_exists.mp hx with ⟨r, hr⟩
      rw [hf x r hr, hg x r hr]
      have hch : ∀ y ∈ adjSel r, f y = g y := by
        intro y hy
        exact ih (S y).card (hcard ▸ hstep_lt x y r hr hy) y rfl (hrefs x r hr y hy)
      rw [any_congr_mem hch]
  intro x hx
  exact main (S x).card x rfl hx

/-- C10: the recursive traversals are well defined as total
functions — `HasPermission`, `HasAncestor` and `HasDescendant`
satisfy their defining recursive equations; on a store whose
parent/child relation is acyclic those equations pin the function
down uniquely (the recursion strictly descends the finite acyclic
edge relation), while on a store with a (half-installed) self-edge
the equations admit two different solutions — the recursion no
longer defines its result, matching the divergence of the source's
unbounded recursion there. -/
theorem c10_traversal_totality (h : Heap) :
    (∀ (x : Nat) (r : DefaultRole), lookupRole h x = some r → ∀ a : String,
      HasPermission h x a =
        (permBase h a x || (childIds r).any (fun c => HasPermission h c a))) ∧
    (∀ (x : Nat) (r : DefaultRole) (tid : Nat) (t : DefaultRole),
      lookupRole h x = some r → lookupRole h tid = some t →
      HasAncestor h x tid =
        (ancBase h t.name x || (parentIds r).any (fun p => HasAncestor h p tid))) ∧
    (∀ (x : Nat) (r : DefaultRole) (tid : Nat) (t : DefaultRole),
      lookupRole h x = some r → lookupRole h tid = some t →
      HasDescendant h x tid =
        (descBase h t.name x || (childIds r).any (fun c => HasDescendant h c tid))) ∧
    (WellFormed h → AcyclicHeap h → ∀ (a : String) (f : Nat → Bool),
      SolWith h childIds (permBase h a) f → ∀ x, (lookupRole h x).isSome →
        f x = HasPermission h x a) ∧
    (∃ f g : Nat → Bool,
      SolWith loopHeap parentIds (ancBase loopHeap "z") f ∧
      SolWith loopHeap parentIds (ancBase loopHeap "z") g ∧ f ≠ g) := by
  refine ⟨?_, ?_, ?_, ?_, ?_⟩
  · intro x r hx a
    exact hasPermission_unfold h hx a
  · intro x r tid t hx ht
    exact hasAncestor_unfold h hx ht
  · intro x r tid t hx ht
    exact hasDescendant_unfold h hx ht
  · intro hWF hAc a f hsol x hx
    refine solution_unique h childIds (permBase h a) (childAdj h) (fun i => rfl) ?_ ?_
      f (fun y => HasPermission h y a) hsol ?_ x hx
    · intro y r hy c hc
      rcases List.mem_map.mp hc with ⟨e, he, hec⟩
      rcases wellFormed_child_ref hWF hy he with ⟨cc, hcc, _⟩
      rw [← hec]
      simp [hcc]
    · exact (acyclicHeap_iff h).mp hAc
    · intro y r hy
      exact hasPermission_unfold h hy a
  · refine ⟨fun v => v == 0, fun _ => false, ?_, ?_, ?_⟩
    · intro x r hx
      have hm := lookupRole_mem hx
      rcases List.mem_cons.mp hm with heq | hm2
      · injection heq with h1 h2
        subst h1
        subst h2
        decide
      · rcases List.mem_singleton.mp hm2 with heq
        injection heq with h1 h2
        subst h1
        subst h2
        decide
    · intro x r hx
      have hm := lookupRole_mem hx
      rcases List.mem_cons.mp hm with heq | hm2
      · injection heq with h1 h2
        subst h1
        subst h2
        decide
      · rcases List.mem_singleton.mp hm2 with heq
        injection heq with h1 h2
        subst h1
        subst h2
        decide
    · intro hfg
      have := congrFun hfg 0
      simp at this

/-- Witness for C10: the unfolding equation instantiated at a
concrete store, and the two distinct solutions on the cyclic store. -/
theorem c10_witness :
    (HasPermission wHeap 0 "zz" =
      (permBase wHeap "zz" 0 || (childIds wRole).any (fun c => HasPermission wHeap c "zz"))) ∧
    (∃ f g : Nat → Bool,
      SolWith loopHeap parentIds (ancBase loopHeap "z") f ∧
      SolWith loopHeap parentIds (ancBase loopHeap "z") g ∧ f ≠ g) :=
  ⟨(c10_traversal_totality wHeap).1 0 wRole rfl "zz",
   (c10_traversal_totality wHeap).2.2.2.2⟩

theorem forall_mem_iff_lookup {h : Heap} (hn : (heapIds h).Nodup)
    (P : Nat × DefaultRole → Prop) :
    (∀ p ∈ h, P p) ↔ (∀ i q, lookupRole h i = some q → P (i, q)) := by
  constructor
  · intro hall i q hl
    exact hall (i, q) (lookupRole_mem hl)
  · intro hall p hp
    exact hall p.1 p.2 (lookupRole_of_mem hn hp)

theorem mem_updateRole {h : Heap} {j : Nat} {f : DefaultRole → DefaultRole} {i : Nat}
    {q : DefaultRole} :
    (i, q) ∈ updateRole h j f ↔ ∃ q0, (i, q0) ∈ h ∧ q = (if i = j then f q0 else q0) := by
  unfold updateRole
  rw [List.mem_map]
  constructor
  · rintro ⟨⟨k, q0⟩, he, heq⟩
    by_cases hkj : k = j
    · rw [if_pos (show ((k, q0).1 == j) = true by simpa using hkj)] at heq
      injection heq with h1 h2
      subst h1
      exact ⟨q0, he, by rw [if_pos hkj]; exact h2.symm⟩
    · rw [if_neg (show ¬ ((k, q0).1 == j) = true by simpa using hkj)] at heq
      injection heq with h1 h2
      subst h1
      subst h2
      exact ⟨q0, he, by rw [if_neg hkj]⟩
  · rintro ⟨q0, hq0, heq⟩
    refine ⟨(i, q0), hq0, ?_⟩
    by_cases hij : i = j
    · rw [if_pos (show ((i, q0).1 == j) = true by simpa using hij)]
      rw [heq, if_pos hij]
    · rw [if_neg (show ¬ ((i, q0).1 == j) = true by simpa using hij)]
      rw [heq, if_neg hij]

theorem lookupRole_name_update (h : Heap) (i : Nat) (f : DefaultRole → DefaultRole)
    (hf : ∀ q, (f q).name = q.name) (j : Nat) :
    (lookupRole (updateRole h i f) j).map (fun q => q.name) =
      (lookupRole h j).map (fun q => q.name) := by
  rw [lookupRole_updateRole]
  by_cases hji : j = i
  · rw [if_pos hji, hji]
    cases lookupRole h i with
    | none => rfl
    | some q => simp [hf]
  · rw [if_neg hji]

theorem refOkB_congr {h h' : Heap}
    (hnames : ∀ j, (lookupRole h' j).map (fun q => q.name) =
      (lookupRole h j).map (fun q => q.name)) (e : String × Nat) :
    refOkB h' e = refOkB h e := by
  unfold refOkB
  have := hnames e.2
  cases hl : lookupRole h e.2 with
  | none =>
    rw [hl] at this
    cases hl' : lookupRole h' e.2 with
    | none => rfl
    | some c => rw [hl'] at this; simp at this
  | some c =>
    rw [hl] at this
    cases hl' : lookupRole h' e.2 with
    | none => rw [hl'] at this; simp at this
    | some c' =>
      rw [hl'] at this
      simp only [Option.map_some'] at this
      injection this with hname
      simp [hname]

theorem lookupRole_transposeHeap (h : Heap) (i : Nat) :
    lookupRole (transposeHeap h) i = (lookupRole h i).map transposeRole := by
  unfold transposeHeap lookupRole
  rw [List.find?_map]
  have hcomp : ((fun e : Nat × DefaultRole => e.1 == i) ∘
      fun e : Nat × DefaultRole => (e.1, transposeRole e.2)) =
      (fun e : Nat × DefaultRole => e.1 == i) := by
    funext e
    rfl
  rw [hcomp]
  cases h.find? (fun e : Nat × DefaultRole => e.1 == i) with
  | none => rfl
  | some e => rfl

theorem transposeRole_invol (r : DefaultRole) : transposeRole (transposeRole r) = r := rfl

theorem transposeHeap_invol (h : Heap) : transposeHeap (transposeHeap h) = h := by
  unfold transposeHeap
  rw [List.map_map]
  apply List.map_id''
  intro e
  rfl

theorem heapIds_transposeHeap (h : Heap) : heapIds (transposeHeap h) = heapIds h := by
  unfold heapIds transposeHeap
  rw [List.map_map]
  rfl

theorem length_transposeHeap (h : Heap) : (transposeHeap h).length = h.length := by
  simp [transposeHeap]

theorem parentAdj_transposeHeap (h : Heap) : parentAdj (transposeHeap h) = childAdj h := by
  funext i
  unfold parentAdj childAdj
  rw [lookupRole_transposeHeap]
  cases lookupRole h i with
  | none => rfl
  | some r => rfl

theorem childAdj_transposeHeap (h : Heap) : childAdj (transposeHeap h) = parentAdj h := by
  funext i
  unfold parentAdj childAdj
  rw [lookupRole_transposeHeap]
  cases lookupRole h i with
  | none => rfl
  | some r => rfl

theorem ancBase_transposeHeap (h : Heap) (n : String) (v : Nat) :
    ancBase (transposeHeap h) n v = descBase h n v := by
  unfold ancBase descBase
  rw [lookupRole_transposeHeap]
  cases lookupRole h v with
  | none => rfl
  | some r => rfl

theorem descBase_transposeHeap (h : Heap) (n : String) (v : Nat) :
    descBase (transposeHeap h) n v = ancBase h n v := by
  unfold ancBase descBase
  rw [lookupRole_transposeHeap]
  cases lookupRole h v with
  | none => rfl
  | some r => rfl

theorem hasAncestor_transposeHeap (h : Heap) (x t : Nat) :
    HasAncestor (transposeHeap h) x t = HasDescendant h x t := by
  unfold HasAncestor HasDescendant
  rw [lookupRole_transposeHeap]
  cases lookupRole h t with
  | none => rfl
  | some tr =>
    simp only [Option.map_some']
    rw [parentAdj_transposeHeap, length_transposeHeap]
    have hb : ancBase (transposeHeap h) (transposeRole tr).name = descBase h tr.name := by
      funext v
      exact ancBase_transposeHeap h tr.name v
    rw [hb]

theorem hasDescendant_transposeHeap (h : Heap) (x t : Nat) :
    HasDescendant (transposeHeap h) x t = HasAncestor h x t := by
  unfold HasAncestor HasDescendant
  rw [lookupRole_transposeHeap]
  cases lookupRole h t with
  | none => rfl
  | some tr =>
    simp only [Option.map_some']
    rw [childAdj_transposeHeap, length_transposeHeap]
    have hb : descBase (transposeHeap h) (transposeRole tr).name = ancBase h tr.name := by
      funext v
      exact descBase_transposeHeap h tr.name v
    rw [hb]

theorem transposeHeap_updateRole (h : Heap) (i : Nat) (f : DefaultRole → DefaultRole) :
    transposeHeap (updateRole h i f) =
      updateRole (transposeHeap h) i
        (fun q => transposeRole (f (transposeRole q))) := by
  unfold transposeHeap updateRole
  rw [List.map_map, List.map_map]
  apply List.map_congr_left
  intro e _
  by_cases he : e.1 = i <;> simp [he, transposeRole_invol]

theorem contains_append_ne {l : List String} {k n : String} (hnk : n ≠ k) :
    (l ++ [k]).contains n = l.contains n := by
  rw [Bool.eq_iff_iff]
  simp [List.mem_append, hnk]

theorem parentKeys_append (q : DefaultRole) (k : String) (y : Nat) :
    parentKeys { q with parents := q.parents ++ [(k, y)] } = parentKeys q ++ [k] := by
  simp [parentKeys]

theorem childKeys_append (q : DefaultRole) (k : String) (y : Nat) :
    childKeys { q with children := q.children ++ [(k, y)] } = childKeys q ++ [k] := by
  simp [childKeys]

theorem parentIds_append (q : DefaultRole) (k : String) (y : Nat) :
    parentIds { q with parents := q.parents ++ [(k, y)] } = parentIds q ++ [y] := by
  simp [parentIds]

theorem childIds_append (q : DefaultRole) (k : String) (y : Nat) :
    childIds { q with children := q.children ++ [(k, y)] } = childIds q ++ [y] := by
  simp [childIds]

theorem step_parent_insert (h : Heap) {x : Nat} {r : DefaultRole}
    (hlx : lookupRole h x = some r) (k : String) (y : Nat) (a b : Nat) :
    Step (parentAdj (updateRole h x (fun q => { q with parents := q.parents ++ [(k, y)] }))) a b ↔
      (Step (parentAdj h) a b ∨ (a = x ∧ b = y)) := by
  unfold Step parentAdj
  rw [lookupRole_updateRole]
  by_cases hax : a = x
  · subst hax
    rw [if_pos rfl, hlx]
    constructor
    · rintro ⟨ds, hds, hb⟩
      simp only [Option.map_some', Option.some.injEq] at hds
      rw [← hds, parentIds_append] at hb
      rcases List.mem_append.mp hb with hb2 | hb2
      · exact .inl ⟨parentIds r, by simp [hlx], hb2⟩
      · exact .inr ⟨rfl, by simpa using hb2⟩
    · rintro (⟨ds, hds, hb⟩ | ⟨-, rfl⟩)
      · simp only [Option.map_some', Option.some.injEq] at hds
        refine ⟨_, rfl, ?_⟩
        rw [parentIds_append]
        exact List.mem_append.mpr (.inl (hds.symm ▸ hb))
      · refine ⟨_, rfl, ?_⟩
        rw [parentIds_append]
        exact List.mem_append.mpr (.inr (by simp))
  · rw [if_neg hax]
    constructor
    · exact fun hs => .inl hs
    · rintro (hs | ⟨rfl, rfl⟩)
      · exact hs
      · exact absurd rfl hax

theorem step_child_insert (h : Heap) {y : Nat} {p : DefaultRole}
    (hly : lookupRole h y = some p) (k : String) (x : Nat) (a b : Nat) :
    Step (childAdj (updateRole h y (fun q => { q with children := q.children ++ [(k, x)] }))) a b ↔
      (Step (childAdj h) a b ∨ (a = y ∧ b = x)) := by
  unfold Step childAdj
  rw [lookupRole_updateRole]
  by_cases hay : a = y
  · subst hay
    rw [if_pos rfl, hly]
    constructor
    · rintro ⟨ds, hds, hb⟩
      simp only [Option.map_some', Option.some.injEq] at hds
      rw [← hds, childIds_append] at hb
      rcases List.mem_append.mp hb with hb2 | hb2
      · exact .inl ⟨childIds p, by simp [hly], hb2⟩
      · exact .inr ⟨rfl, by simpa using hb2⟩
    · rintro (⟨ds, hds, hb⟩ | ⟨-, rfl⟩)
      · simp only [Option.map_some', Option.some.injEq] at hds
        refine ⟨_, rfl, ?_⟩
        rw [childIds_append]
        exact List.mem_append.mpr (.inl (hds.symm ▸ hb))
      · refine ⟨_, rfl, ?_⟩
        rw [childIds_append]
        exact List.mem_append.mpr (.inr (by simp))
  · rw [if_neg hay]
    constructor
    · exact fun hs => .inl hs
    · rintro (hs | ⟨rfl, rfl⟩)
      · exact hs
      · exact absurd rfl hay

theorem childAdj_parent_insert (h : Heap) (x : Nat) (k : String) (y : Nat) :
    childAdj (updateRole h x (fun q => { q with parents := q.parents ++ [(k, y)] })) =
      childAdj h := by
  funext i
  unfold childAdj
  rw [lookupRole_updateRole]
  by_cases hix : i = x
  · rw [if_pos hix, hix]
    cases lookupRole h x with
    | none => rfl
    | some q => rfl
  · rw [if_neg hix]

theorem parentAdj_child_insert (h : Heap) (y : Nat) (k : String) (x : Nat) :
    parentAdj (updateRole h y (fun q => { q with children := q.children ++ [(k, x)] })) =
      parentAdj h := by
  funext i
  unfold parentAdj
  rw [lookupRole_updateRole]
  by_cases hiy : i = y
  · rw [if_pos hiy, hiy]
    cases lookupRole h y with
    | none => rfl
    | some q => rfl
  · rw [if_neg hiy]

theorem ancBase_parent_insert (h : Heap) (x : Nat) (k : String) (y : Nat) {n : String}
    (hnk : n ≠ k) (v : Nat) :
    ancBase (updateRole h x (fun q => { q with parents := q.parents ++ [(k, y)] })) n v =
      ancBase h n v := by
  unfold ancBase
  rw [lookupRole_updateRole]
  by_cases hvx : v = x
  · rw [if_pos hvx, hvx]
    cases lookupRole h x with
    | none => rfl
    | some q =>
      simp only [Option.map_some']
      show (parentKeys { q with parents := q.parents ++ [(k, y)] }).contains n = _
      rw [parentKeys_append, contains_append_ne hnk]
  · rw [if_neg hvx]

theorem ancBase_child_insert (h : Heap) (y : Nat) (k : String) (x : Nat) (n : String) (v : Nat) :
    ancBase (updateRole h y (fun q => { q with children := q.children ++ [(k, x)] })) n v =
      ancBase h n v := by
  unfold ancBase
  rw [lookupRole_updateRole]
  by_cases hvy : v = y
  · rw [if_pos hvy, hvy]
    cases lookupRole h y with
    | none => rfl
    | some q => rfl
  · rw [if_neg hvy]

theorem descBase_parent_insert (h : Heap) (x : Nat) (k : String) (y : Nat) (n : String) (v : Nat) :
    descBase (updateRole h x (fun q => { q with parents := q.parents ++ [(k, y)] })) n v =
      descBase h n v := by
  unfold descBase
  rw [lookupRole_updateRole]
  by_cases hvx : v = x
  · rw [if_pos hvx, hvx]
    cases lookupRole h x with
    | none => rfl
    | some q => rfl
  · rw [if_neg hvx]

theorem descBase_child_insert (h : Heap) (y : Nat) (k : String) (x : Nat) {n : String}
    (hnk : n ≠ k) (v : Nat) :
    descBase (updateRole h y (fun q => { q with children := q.children ++ [(k, x)] })) n v =
      descBase h n v := by
  unfold descBase
  rw [lookupRole_updateRole]
  by_cases hvy : v = y
  · rw [if_pos hvy, hvy]
    cases lookupRole h y with
    | none => rfl
    | some q =>
      simp only [Option.map_some']
      show (childKeys { q with children := q.children ++ [(k, x)] }).contains n = _
      rw [childKeys_append, contains_append_ne hnk]
  · rw [if_neg hvy]


theorem namesInj_ne {h : Heap} (hInj : NamesInj h) {x y : Nat} {r p : DefaultRole}
    (hlx : lookupRole h x = some r) (hly : lookupRole h y = some p) (hxy : x ≠ y) :
    r.name ≠ p.name :=
  fun hn => hxy (namesInj_eq hInj hlx hly hn)

theorem cycle_new_edge {adj adj' : Nat → Option (List Nat)} {u w : Nat}
    (hstep : ∀ a b, Step adj' a b ↔ Step adj a b ∨ (a = u ∧ b = w)) {z : Nat}
    (hc : ReachPlus adj' z z) : ReachPlus adj z z ∨ Reaches adj' w u := by
  rcases hc with ⟨v, hr, hs⟩
  rcases (hstep v z).mp hs with hold | ⟨rfl, rfl⟩
  · rcases reaches_update_from hstep hr with hrold | ⟨hzu, hwv⟩
    · exact .inl ⟨v, hrold, hold⟩
    · refine .inr ?_
      have hsz : Step adj' v z := (hstep v z).mpr (.inl hold)
      have h1 : Reaches adj' w z := hwv.tail hsz
      have h2 : Reaches adj' z u :=
        reaches_mono (fun a b hab => (hstep a b).mpr (.inl hab)) hzu
      exact h1.trans h2
  · exact .inr hr

theorem reaches_new_edge_absent {adj adj' : Nat → Option (List Nat)} {u w : Nat}
    (hstep : ∀ a b, Step adj' a b ↔ Step adj a b ∨ (a = u ∧ b = w)) {x v : Nat}
    (hnr : ¬ Reaches adj x u) (hr : Reaches adj' x v) : Reaches adj x v := by
  rcases reaches_update_from hstep hr with h | ⟨h1, _⟩
  · exact h
  · exact absurd h1 hnr

theorem mem_link_decomp {h : Heap} {x y : Nat} {pn rn : String} {i : Nat} {q : DefaultRole}
    (hm : (i, q) ∈ updateRole
        (updateRole h x (fun t => { t with parents := t.parents ++ [(pn, y)] })) y
        (fun t => { t with children := t.children ++ [(rn, x)] })) :
    ∃ q0, (i, q0) ∈ h ∧ q.name = q0.name ∧
      q.parents = (if i = x then q0.parents ++ [(pn, y)] else q0.parents) ∧
      q.children = (if i = y then q0.children ++ [(rn, x)] else q0.children) := by
  rcases mem_updateRole.mp hm with ⟨q1, hq1, hq⟩
  rcases mem_updateRole.mp hq1 with ⟨q0, hq0, hq1e⟩
  subst hq
  subst hq1e
  refine ⟨q0, hq0, ?_, ?_, ?_⟩ <;>
  · by_cases hiy : i = y <;> by_cases hix : i = x
    · have hyx2 : y = x := by rw [← hiy, hix]
      simp [hiy, hix, hyx2]
    · have hyx2 : ¬ y = x := fun hh => hix (hiy.trans hh)
      simp [hiy, hyx2]
    · have hxy2 : ¬ x = y := fun hh => hiy (hix.trans hh)
      simp [hix, hxy2]
    · simp [hiy, hix]


theorem link_anc_false {h : Heap} (hWF : WellFormed h) (hInj : NamesInj h)
    (hSym : SymmetricHeap h) {x y : Nat} (hxy : x ≠ y) {r p : DefaultRole}
    (hlx : lookupRole h x = some r) (hly : lookupRole h y = some p)
    (hdesc : HasDescendant h x y = false) :
    HasAncestor
      (updateRole h x (fun t => { t with parents := t.parents ++ [(p.name, y)] })) y x = false := by
  set h1 := updateRole h x (fun t => { t with parents := t.parents ++ [(p.name, y)] }) with hh1
  cases hA : HasAncestor h1 y x with
  | false => rfl
  | true =>
    exfalso
    have hl1x : lookupRole h1 x = some { r with parents := r.parents ++ [(p.name, y)] } := by
      rw [hh1, lookupRole_updateRole, if_pos rfl, hlx]
      rfl
    rcases (hasAncestor_iff_reach h1 hl1x).mp hA with ⟨v, hr, hb⟩
    have hnk : r.name ≠ p.name := namesInj_ne hInj hlx hly hxy
    have hb2 : ancBase h r.name v = true := by
      have he := @ancBase_parent_insert h x p.name y r.name hnk v
      have hb' : ancBase h1 r.name v = true := hb
      rw [hh1] at hb'
      rw [← he]
      exact hb'
    have hstep_iff : ∀ a b, Step (parentAdj h1) a b ↔
        Step (parentAdj h) a b ∨ (a = x ∧ b = y) := by
      rw [hh1]
      exact step_parent_insert h hlx p.name y
    have hstepx : Step (parentAdj h) v x := (ancBase_iff_step hWF hInj hlx v).mp hb2
    have hcontra : ReachPlus (parentAdj h) y x := by
      rcases reaches_update_from hstep_iff hr with hold | ⟨hyx, _⟩
      · exact ⟨v, hold, hstepx⟩
      · exact reachPlus_of_ne hyx (Ne.symm hxy)
    have hD : HasDescendant h x y = true := by
      rw [hasDescendant_iff_reachPlus hWF hInj hly]
      exact (reachPlus_flip hWF hSym y x).mp hcontra
    rw [hdesc] at hD
    cases hD

theorem link_childkey_false {h : Heap} (hWF : WellFormed h) (hInj : NamesInj h)
    (hSym : SymmetricHeap h) {x y : Nat} {r p : DefaultRole}
    (hlx : lookupRole h x = some r) (hly : lookupRole h y = some p)
    (hpk : (parentKeys r).contains p.name = false) :
    (childKeys p).contains r.name = false := by
  cases hck : (childKeys p).contains r.name with
  | false => rfl
  | true =>
    exfalso
    have hmem : r.name ∈ childKeys p := by simpa using hck
    rcases List.mem_map.mp hmem with ⟨e, he, he1⟩
    rcases wellFormed_child_ref hWF hly he with ⟨c, hlc, hcn⟩
    have hex : e.2 = x := namesInj_eq hInj hlc hlx (by rw [hcn, he1])
    have he' : (r.name, x) ∈ p.children := by
      have hee : e = (r.name, x) := by
        rcases e with ⟨k, j⟩
        simp only at he1 hex
        rw [he1, hex]
      rwa [hee] at he
    have hpm : (p.name, y) ∈ r.parents :=
      (hSym (x, r) (lookupRole_mem hlx) (y, p) (lookupRole_mem hly)).mpr he'
    have hcc : (parentKeys r).contains p.name = true := by
      have : p.name ∈ parentKeys r := List.mem_map_of_mem _ hpm
      simpa using this
    rw [hpk] at hcc
    cases hcc

theorem link_desc_false {h : Heap} (hWF : WellFormed h) (hInj : NamesInj h)
    {x y : Nat} (hxy : x ≠ y) {r p : DefaultRole}
    (hlx : lookupRole h x = some r) (hly : lookupRole h y = some p)
    (hdesc : HasDescendant h x y = false) :
    HasDescendant
      (updateRole (updateRole h x (fun t => { t with parents := t.parents ++ [(p.name, y)] })) y
        (fun t => { t with children := t.children ++ [(r.name, x)] })) x y = false := by
  set h1 := updateRole h x (fun t => { t with parents := t.parents ++ [(p.name, y)] }) with hh1
  set h2 := updateRole h1 y (fun t => { t with children := t.children ++ [(r.name, x)] }) with hh2
  cases hD : HasDescendant h2 x y with
  | false => rfl
  | true =>
    exfalso
    have hl1y : lookupRole h1 y = some p := by
      rw [hh1, lookupRole_updateRole, if_neg (fun hh => hxy hh.symm)]
      exact hly
    have hl2y : lookupRole h2 y = some { p with children := p.children ++ [(r.name, x)] } := by
      rw [hh2, lookupRole_updateRole, if_pos rfl, hl1y]
      rfl
    rcases (hasDescendant_iff_reach h2 hl2y).mp hD with ⟨v, hr, hb⟩
    have hnk : p.name ≠ r.name := Ne.symm (namesInj_ne hInj hlx hly hxy)
    have hb2 : descBase h p.name v = true := by
      have e1 := @descBase_child_insert h1 y r.name x p.name hnk v
      have e2 := descBase_parent_insert h x p.name y p.name v
      have hb' : descBase h2 p.name v = true := hb
      rw [hh2] at hb'
      rw [e1, hh1, e2] at hb'
      exact hb'
    have hstepvy : Step (childAdj h) v y := (descBase_iff_step hWF hInj hly v).mp hb2
    have hca1 : childAdj h1 = childAdj h := by
      rw [hh1]
      exact childAdj_parent_insert h x p.name y
    have hstep2 : ∀ a b, Step (childAdj h2) a b ↔
        Step (childAdj h) a b ∨ (a = y ∧ b = x) := by
      intro a b
      have hs := step_child_insert h1 hl1y r.name x a b
      rw [← hh2, hca1] at hs
      exact hs
    have hnr : ¬ Reaches (childAdj h) x y := by
      intro hrr
      have hD2 : HasDescendant h x y = true := by
        rw [hasDescendant_iff_reachPlus hWF hInj hly]
        exact reachPlus_of_ne hrr hxy
      rw [hdesc] at hD2
      cases hD2
    have hrv : Reaches (childAdj h) x v := reaches_new_edge_absent hstep2 hnr hr
    have hD2 : HasDescendant h x y = true := by
      rw [hasDescendant_iff_reachPlus hWF hInj hly]
      exact ⟨v, hrv, hstepvy⟩
    rw [hdesc] at hD2
    cases hD2


theorem addParent_ok {h : Heap} (hInv : InvHeap h) {x y : Nat} (hxy : x ≠ y) :
    InvHeap (AddParent h x y).1 ∧
      ((AddParent h x y).2 ≠ none → (AddParent h x y).1 = h) ∧
      ((AddParent h x y).2 = none → BothEdges (AddParent h x y).1 x y) := by
  obtain ⟨hWF, hInj, hSym, hAc⟩ := hInv
  cases hlx : lookupRole h x with
  | none =>
    have he : AddParent h x y = (h, some .absentRole) := by
      show addParentF 3 h x y = _
      simp [addParentF, hlx]
    rw [he]
    exact ⟨⟨hWF, hInj, hSym, hAc⟩, fun _ => rfl, fun hc => absurd hc (by simp)⟩
  | some r =>
    cases hly : lookupRole h y with
    | none =>
      have he : AddParent h x y = (h, some .absentRole) := by
        show addParentF 3 h x y = _
        simp [addParentF, hlx, hly]
      rw [he]
      exact ⟨⟨hWF, hInj, hSym, hAc⟩, fun _ => rfl, fun hc => absurd hc (by simp)⟩
    | some p =>
      cases hdesc : HasDescendant h x y with
      | true =>
        have he : AddParent h x y = (h, some (.wrap .circularRef p.name)) := by
          show addParentF 3 h x y = _
          simp only [addParentF, hlx, hly, hdesc, if_true]
        rw [he]
        exact ⟨⟨hWF, hInj, hSym, hAc⟩, fun _ => rfl, fun hc => absurd hc (by simp)⟩
      | false =>
        cases hpk : (parentKeys r).contains p.name with
        | true =>
          have he : AddParent h x y = (h, none) := by
            show addParentF 3 h x y = _
            have hmemr : p.name ∈ parentKeys r := by simpa using hpk
            simp [addParentF, hlx, hly, hdesc, hmemr]
          rw [he]
          refine ⟨⟨hWF, hInj, hSym, hAc⟩, fun _ => rfl, fun _ => ?_⟩
          have hmem : p.name ∈ parentKeys r := by simpa using hpk
          rcases List.mem_map.mp hmem with ⟨e, he2, he1⟩
          rcases wellFormed_parent_ref hWF hlx he2 with ⟨c, hlc, hcn⟩
          have hey : e.2 = y := namesInj_eq hInj hlc hly (by rw [hcn, he1])
          have hpm : (p.name, y) ∈ r.parents := by
            have hee : e = (p.name, y) := by
              rcases e with ⟨k, j⟩
              simp only at he1 hey
              rw [he1, hey]
            rwa [hee] at he2
          have hcm : (r.name, x) ∈ p.children :=
            (hSym (x, r) (lookupRole_mem hlx) (y, p) (lookupRole_mem hly)).mp hpm
          exact ⟨r, p, hlx, hly, hpm, hcm⟩
        | false =>
          have hnk : r.name ≠ p.name := namesInj_ne hInj hlx hly hxy
          set h1 := updateRole h x (fun t => { t with parents := t.parents ++ [(p.name, y)] })
            with hh1
          set h2 := updateRole h1 y (fun t => { t with children := t.children ++ [(r.name, x)] })
            with hh2
          have hl1x : lookupRole h1 x = some { r with parents := r.parents ++ [(p.name, y)] } := by
            rw [hh1, lookupRole_updateRole, if_pos rfl, hlx]
            rfl
          have hl1y : lookupRole h1 y = some p := by
            rw [hh1, lookupRole_updateRole, if_neg (fun hh => hxy hh.symm)]
            exact hly
          have hl2x : lookupRole h2 x = some { r with parents := r.parents ++ [(p.name, y)] } := by
            rw [hh2, lookupRole_updateRole, if_neg hxy]
            exact hl1x
          have hl2y : lookupRole h2 y =
              some { p with children := p.children ++ [(r.name, x)] } := by
            rw [hh2, lookupRole_updateRole, if_pos rfl, hl1y]
            rfl
          have hA : HasAncestor h1 y x = false := by
            rw [hh1]
            exact link_anc_false hWF hInj hSym hxy hlx hly hdesc
          have hck : (childKeys p).contains r.name = false :=
            link_childkey_false hWF hInj hSym hlx hly hpk
          have hD2 : HasDescendant h2 x y = false := by
            rw [hh2, hh1]
            exact link_desc_false hWF hInj hxy hlx hly hdesc
          have he : AddParent h x y = (h2, none) := by
            show addParentF 3 h x y = _
            have e1 : addParentF 3 h x y = addChildF 2 h1 y x := by
              rw [hh1]
              have hnm1 : p.name ∉ parentKeys r := by simpa using hpk
              simp [addParentF, hlx, hly, hdesc, hnm1]
            have e2 : addChildF 2 h1 y x = addParentF 1 h2 x y := by
              rw [hh2]
              have hnm2 : r.name ∉ childKeys p := by simpa using hck
              simp [addChildF, hl1y, hl1x, hA, hnm2]
            have e3 : addParentF 1 h2 x y = (h2, none) := by
              have hpk2 : ({ p with children := p.children ++ [(r.name, x)] }).name ∈
                  parentKeys { r with parents := r.parents ++ [(p.name, y)] } := by
                simp [parentKeys]
              simp [addParentF, hl2x, hl2y, hD2, hpk2]
            rw [e1, e2, e3]
          rw [he]
          have hnodup : (heapIds h).Nodup := hWF.1
          have hids2 : heapIds h2 = heapIds h := by
            rw [hh2, heapIds_updateRole, hh1, heapIds_updateRole]
          have hnames : ∀ j, (lookupRole h2 j).map (fun q => q.name) =
              (lookupRole h j).map (fun q => q.name) := by
            intro j
            rw [hh2, lookupRole_name_update h1 y
                (fun t => { t with children := t.children ++ [(r.name, x)] }) (fun q => rfl) j,
              hh1, lookupRole_name_update h x
                (fun t => { t with parents := t.parents ++ [(p.name, y)] }) (fun q => rfl) j]
          have hrefOk : ∀ e, refOkB h2 e = refOkB h e := refOkB_congr hnames
          have hdecomp : ∀ i q, (i, q) ∈ h2 → ∃ q0, (i, q0) ∈ h ∧ q.name = q0.name ∧
              q.parents = (if i = x then q0.parents ++ [(p.name, y)] else q0.parents) ∧
              q.children = (if i = y then q0.children ++ [(r.name, x)] else q0.children) := by
            intro i q hm
            rw [hh2, hh1] at hm
            exact mem_link_decomp hm
          have hWF2 : WellFormed h2 := by
            constructor
            · rw [hids2]
              exact hnodup
            · rintro ⟨i, q⟩ hm
              rcases hdecomp i q hm with ⟨q0, hq0, hn, hp2, hc2⟩
              have hold := hWF.2 (i, q0) hq0
              refine ⟨fun e heq => ?_, fun e heq => ?_⟩
              · rw [hrefOk]
                have heq2 : e ∈ q.children := heq
                rw [hc2] at heq2
                by_cases hiy : i = y
                · rw [if_pos hiy] at heq2
                  rcases List.mem_append.mp heq2 with he2 | he2
                  · exact hold.1 e he2
                  · have hee : e = (r.name, x) := by simpa using he2
                    rw [hee]
                    simp [refOkB, hlx]
                · rw [if_neg hiy] at heq2
                  exact hold.1 e heq2
              · rw [hrefOk]
                have heq2 : e ∈ q.parents := heq
                rw [hp2] at heq2
                by_cases hix : i = x
                · rw [if_pos hix] at heq2
                  rcases List.mem_append.mp heq2 with he2 | he2
                  · exact hold.2 e he2
                  · have hee : e = (p.name, y) := by simpa using he2
                    rw [hee]
                    simp [refOkB, hly]
                · rw [if_neg hix] at heq2
                  exact hold.2 e heq2
          have hInj2 : NamesInj h2 := by
            rintro ⟨i, q⟩ hm ⟨j, s⟩ hm2 hns
            rcases hdecomp i q hm with ⟨q0, hq0, hn, _, _⟩
            rcases hdecomp j s hm2 with ⟨s0, hs0, hn2, _, _⟩
            exact hInj (i, q0) hq0 (j, s0) hs0 (by rw [← hn, ← hn2]; exact hns)
          have hSym2 : SymmetricHeap h2 := by
            rintro ⟨a, qa⟩ hma ⟨b, qb⟩ hmb
            rcases hdecomp a qa hma with ⟨qa0, hqa0, hna, hpa, hca⟩
            rcases hdecomp b qb hmb with ⟨qb0, hqb0, hnb, hpb, hcb⟩
            have hla0 : lookupRole h a = some qa0 := lookupRole_of_mem hnodup hqa0
            have hlb0 : lookupRole h b = some qb0 := lookupRole_of_mem hnodup hqb0
            have hso := hSym (a, qa0) hqa0 (b, qb0) hqb0
            show (qb.name, b) ∈ qa.parents ↔ (qa.name, a) ∈ qb.children
            rw [hna, hnb, hpa, hcb]
            constructor
            · intro hmem
              by_cases hax : a = x
              · rw [if_pos hax] at hmem
                rcases List.mem_append.mp hmem with hm2 | hm2
                · have hnew := hso.mp hm2
                  by_cases hby : b = y
                  · rw [if_pos hby]
                    exact List.mem_append.mpr (.inl hnew)
                  · rw [if_neg hby]
                    exact hnew
                · have hm2' := List.mem_singleton.mp hm2
                  rw [Prod.mk.injEq] at hm2'
                  obtain ⟨hbn, hby⟩ := hm2'
                  have hqa0r : qa0 = r := by
                    rw [hax] at hla0
                    exact Option.some.inj (hla0.symm.trans hlx)
                  rw [if_pos hby]
                  refine List.mem_append.mpr (.inr ?_)
                  simp [hqa0r, hax]
              · rw [if_neg hax] at hmem
                have hnew := hso.mp hmem
                by_cases hby : b = y
                · rw [if_pos hby]
                  exact List.mem_append.mpr (.inl hnew)
                · rw [if_neg hby]
                  exact hnew
            · intro hmem
              by_cases hby : b = y
              · rw [if_pos hby] at hmem
                rcases List.mem_append.mp hmem with hm2 | hm2
                · have hnew := hso.mpr hm2
                  by_cases hax : a = x
                  · rw [if_pos hax]
                    exact List.mem_append.mpr (.inl hnew)
                  · rw [if_neg hax]
                    exact hnew
                · have hm2' := List.mem_singleton.mp hm2
                  rw [Prod.mk.injEq] at hm2'
                  obtain ⟨han, hax⟩ := hm2'
                  have hqb0p : qb0 = p := by
                    rw [hby] at hlb0
                    exact Option.some.inj (hlb0.symm.trans hly)
                  rw [if_pos hax]
                  refine List.mem_append.mpr (.inr ?_)
                  simp [hqb0p, hby]
              · rw [if_neg hby] at hmem
                have hnew := hso.mpr hmem
                by_cases hax : a = x
                · rw [if_pos hax]
                  exact List.mem_append.mpr (.inl hnew)
                · rw [if_neg hax]
                  exact hnew
          have hAc2 : AcyclicHeap h2 := by
            rw [acyclicHeap_iff]
            intro z hcz
            have hca1 : childAdj h1 = childAdj h := by
              rw [hh1]
              exact childAdj_parent_insert h x p.name y
            have hstep2 : ∀ a b, Step (childAdj h2) a b ↔
                Step (childAdj h) a b ∨ (a = y ∧ b = x) := by
              intro a b
              have hs := step_child_insert h1 hl1y r.name x a b
              rw [← hh2, hca1] at hs
              exact hs
            rcases cycle_new_edge hstep2 hcz with hcyc | hxy2
            · exact (acyclicHeap_iff h).mp hAc z hcyc
            · have hnr : ¬ Reaches (childAdj h) x y := by
                intro hrr
                have hDt : HasDescendant h x y = true := by
                  rw [hasDescendant_iff_reachPlus hWF hInj hly]
                  exact reachPlus_of_ne hrr hxy
                rw [hdesc] at hDt
                cases hDt
              exact hnr (reaches_new_edge_absent hstep2 hnr hxy2)
          refine ⟨⟨hWF2, hInj2, hSym2, hAc2⟩, fun hs => absurd rfl hs, fun _ => ?_⟩
          exact ⟨_, _, hl2x, hl2y, by simp, by simp⟩


theorem mem_transposeHeap {h : Heap} {i : Nat} {q : DefaultRole}
    (hm : (i, q) ∈ transposeHeap h) : ∃ q0, (i, q0) ∈ h ∧ q = transposeRole q0 := by
  rcases List.mem_map.mp hm with ⟨⟨j, q0⟩, hm0, heq⟩
  injection heq with h1 h2
  subst h1
  exact ⟨q0, hm0, h2.symm⟩

theorem invHeap_transposeHeap {h : Heap} (hInv : InvHeap h) : InvHeap (transposeHeap h) := by
  obtain ⟨hWF, hInj, hSym, hAc⟩ := hInv
  have hnames : ∀ j, (lookupRole (transposeHeap h) j).map (fun q => q.name) =
      (lookupRole h j).map (fun q => q.name) := by
    intro j
    rw [lookupRole_transposeHeap]
    cases lookupRole h j <;> rfl
  refine ⟨⟨?_, ?_⟩, ?_, ?_, ?_⟩
  · rw [heapIds_transposeHeap]
    exact hWF.1
  · rintro ⟨i, q⟩ hm
    rcases mem_transposeHeap hm with ⟨q0, hq0, rfl⟩
    have hold := hWF.2 (i, q0) hq0
    refine ⟨fun e he => ?_, fun e he => ?_⟩
    · rw [refOkB_congr hnames]
      exact hold.2 e he
    · rw [refOkB_congr hnames]
      exact hold.1 e he
  · rintro ⟨i, q⟩ hm ⟨j, s⟩ hm2 hn
    rcases mem_transposeHeap hm with ⟨q0, hq0, rfl⟩
    rcases mem_transposeHeap hm2 with ⟨s0, hs0, rfl⟩
    exact hInj (i, q0) hq0 (j, s0) hs0 hn
  · rintro ⟨a, qa⟩ hma ⟨b, qb⟩ hmb
    rcases mem_transposeHeap hma with ⟨qa0, hqa0, rfl⟩
    rcases mem_transposeHeap hmb with ⟨qb0, hqb0, rfl⟩
    exact (hSym (b, qb0) hqb0 (a, qa0) hqa0).symm
  · rw [acyclicHeap_iff]
    intro z hp
    rw [childAdj_transposeHeap] at hp
    exact acyclic_parentAdj hWF hSym hAc z hp

theorem bothEdges_transposeHeap (h : Heap) (a b : Nat) :
    BothEdges (transposeHeap h) a b ↔ BothEdges h b a := by
  unfold BothEdges
  rw [lookupRole_transposeHeap, lookupRole_transposeHeap]
  constructor
  · rintro ⟨r, p, hr, hp, hmr, hmp⟩
    cases hla : lookupRole h a with
    | none => rw [hla] at hr; simp at hr
    | some ra =>
      cases hlb : lookupRole h b with
      | none => rw [hlb] at hp; simp at hp
      | some rb =>
        rw [hla] at hr
        rw [hlb] at hp
        simp only [Option.map_some', Option.some.injEq] at hr hp
        subst hr
        subst hp
        exact ⟨rb, ra, rfl, rfl, hmp, hmr⟩
  · rintro ⟨rb, ra, hlb, hla, hm1, hm2⟩
    exact ⟨transposeRole ra, transposeRole rb, by rw [hla]; rfl, by rw [hlb]; rfl, hm2, hm1⟩

theorem addF_transpose : ∀ (n : Nat) (h : Heap) (rid pid : Nat),
    addParentF n (transposeHeap h) rid pid =
      (transposeHeap (addChildF n h rid pid).1, (addChildF n h rid pid).2) ∧
    addChildF n (transposeHeap h) rid pid =
      (transposeHeap (addParentF n h rid pid).1, (addParentF n h rid pid).2) := by
  intro n
  induction n with
  | zero =>
    intro h rid pid
    constructor <;> rfl
  | succ n ih =>
    intro h rid pid
    constructor
    · cases hlr : lookupRole h rid with
      | none =>
        have hTr : lookupRole (transposeHeap h) rid = none := by
          rw [lookupRole_transposeHeap, hlr]
          rfl
        simp [addParentF, addChildF, hTr, hlr]
      | some r =>
        have hTr : lookupRole (transposeHeap h) rid = some (transposeRole r) := by
          rw [lookupRole_transposeHeap, hlr]
          rfl
        cases hlp : lookupRole h pid with
        | none =>
          have hTp : lookupRole (transposeHeap h) pid = none := by
            rw [lookupRole_transposeHeap, hlp]
            rfl
          simp [addParentF, addChildF, hTr, hTp, hlr, hlp]
        | some p =>
          have hTp : lookupRole (transposeHeap h) pid = some (transposeRole p) := by
            rw [lookupRole_transposeHeap, hlp]
            rfl
          have hTname : (transposeRole p).name = p.name := rfl
          have hkeys1 : parentKeys (transposeRole r) = childKeys r := rfl
          cases hd : HasAncestor h rid pid with
          | true =>
            have hdT : HasDescendant (transposeHeap h) rid pid = true := by
              rw [hasDescendant_transposeHeap]
              exact hd
            simp [addParentF, addChildF, hTr, hTp, hlr, hlp, hdT, hd, hTname]
          | false =>
            have hdT : HasDescendant (transposeHeap h) rid pid = false := by
              rw [hasDescendant_transposeHeap]
              exact hd
            cases hck : (childKeys r).contains p.name with
            | true =>
              have hmem : p.name ∈ childKeys r := by simpa using hck
              have hmemT : (transposeRole p).name ∈ parentKeys (transposeRole r) := by
                rw [hTname, hkeys1]
                exact hmem
              simp [addParentF, addChildF, hTr, hTp, hlr, hlp, hdT, hd, hmem, hmemT]
            | false =>
              have hnmem : p.name ∉ childKeys r := by simpa using hck
              have hnmemT : (transposeRole p).name ∉ parentKeys (transposeRole r) := by
                rw [hTname, hkeys1]
                exact hnmem
              have hupd : updateRole (transposeHeap h) rid
                  (fun q => { q with parents := q.parents ++ [((transposeRole p).name, pid)] }) =
                  transposeHeap (updateRole h rid
                    (fun q => { q with children := q.children ++ [(p.name, pid)] })) := by
                rw [transposeHeap_updateRole]
                rfl
              have hred1 : addParentF (n + 1) (transposeHeap h) rid pid =
                  addChildF n (updateRole (transposeHeap h) rid
                    (fun q => { q with parents :=
                      q.parents ++ [((transposeRole p).name, pid)] })) pid rid := by
                simp [addParentF, hTr, hTp, hdT, hnmemT]
              have hred2 : addChildF (n + 1) h rid pid =
                  addParentF n (updateRole h rid
                    (fun q => { q with children := q.children ++ [(p.name, pid)] })) pid rid := by
                simp [addChildF, hlr, hlp, hd, hnmem]
              rw [hred1, hred2, hupd]
              exact (ih _ pid rid).2
    · cases hlr : lookupRole h rid with
      | none =>
        have hTr : lookupRole (transposeHeap h) rid = none := by
          rw [lookupRole_transposeHeap, hlr]
          rfl
        simp [addParentF, addChildF, hTr, hlr]
      | some r =>
        have hTr : lookupRole (transposeHeap h) rid = some (transposeRole r) := by
          rw [lookupRole_transposeHeap, hlr]
          rfl
        cases hlp : lookupRole h pid with
        | none =>
          have hTp : lookupRole (transposeHeap h) pid = none := by
            rw [lookupRole_transposeHeap, hlp]
            rfl
          simp [addParentF, addChildF, hTr, hTp, hlr, hlp]
        | some p =>
          have hTp : lookupRole (transposeHeap h) pid = some (transposeRole p) := by
            rw [lookupRole_transposeHeap, hlp]
            rfl
          have hTname : (transposeRole p).name = p.name := rfl
          have hkeys2 : childKeys (transposeRole r) = parentKeys r := rfl
          cases hd : HasDescendant h rid pid with
          | true =>
            have hdT : HasAncestor (transposeHeap h) rid pid = true := by
              rw [hasAncestor_transposeHeap]
              exact hd
            simp [addParentF, addChildF, hTr, hTp, hlr, hlp, hdT, hd, hTname]
          | false =>
            have hdT : HasAncestor (transposeHeap h) rid pid = false := by
              rw [hasAncestor_transposeHeap]
              exact hd
            cases hck : (parentKeys r).contains p.name with
            | true =>
              have hmem : p.name ∈ parentKeys r := by simpa using hck
              have hmemT : (transposeRole p).name ∈ childKeys (transposeRole r) := by
                rw [hTname, hkeys2]
                exact hmem
              simp [addParentF, addChildF, hTr, hTp, hlr, hlp, hdT, hd, hmem, hmemT]
            | false =>
              have hnmem : p.name ∉ parentKeys r := by simpa using hck
              have hnmemT : (transposeRole p).name ∉ childKeys (transposeRole r) := by
                rw [hTname, hkeys2]
                exact hnmem
              have hupd : updateRole (transposeHeap h) rid
                  (fun q => { q with children := q.children ++ [((transposeRole p).name, pid)] }) =
                  transposeHeap (updateRole h rid
                    (fun q => { q with parents := q.parents ++ [(p.name, pid)] })) := by
                rw [transposeHeap_updateRole]
                rfl
              have hred1 : addChildF (n + 1) (transposeHeap h) rid pid =
                  addParentF n (updateRole (transposeHeap h) rid
                    (fun q => { q with children :=
                      q.children ++ [((transposeRole p).name, pid)] })) pid rid := by
                simp [addChildF, hTr, hTp, hdT, hnmemT]
              have hred2 : addParentF (n + 1) h rid pid =
                  addChildF n (updateRole h rid
                    (fun q => { q with parents := q.parents ++ [(p.name, pid)] })) pid rid := by
                simp [addParentF, hlr, hlp, hd, hnmem]
              rw [hred1, hred2, hupd]
              exact (ih _ pid rid).1

theorem addChild_ok {h : Heap} (hInv : InvHeap h) {x y : Nat} (hxy : x ≠ y) :
    InvHeap (AddChild h x y).1 ∧
      ((AddChild h x y).2 ≠ none → (AddChild h x y).1 = h) ∧
      ((AddChild h x y).2 = none → BothEdges (AddChild h x y).1 y x) := by
  have htr := (addF_transpose 3 (transposeHeap h) x y).2
  rw [transposeHeap_invol] at htr
  have hInvT : InvHeap (transposeHeap h) := invHeap_transposeHeap hInv
  have hap := addParent_ok hInvT hxy
  have hAC : AddChild h x y =
      (transposeHeap (AddParent (transposeHeap h) x y).1,
        (AddParent (transposeHeap h) x y).2) := htr
  rw [hAC]
  refine ⟨invHeap_transposeHeap hap.1, fun hs => ?_, fun hs => ?_⟩
  · have hu := hap.2.1 hs
    show transposeHeap (AddParent (transposeHeap h) x y).1 = h
    rw [hu, transposeHeap_invol]
  · exact (bothEdges_transposeHeap _ y x).mpr (hap.2.2 hs)


theorem applyOp_ok {h : Heap} (hInv : InvHeap h) {op : EdgeOp}
    (hop : opRecv op ≠ opArg op) :
    InvHeap (applyOp h op).1 ∧
      ((applyOp h op).2 ≠ none → (applyOp h op).1 = h) ∧
      ((applyOp h op).2 = none →
        BothEdges (applyOp h op).1 (opEdge op).1 (opEdge op).2) := by
  cases op with
  | parentOp rid pid => exact addParent_ok hInv hop
  | childOp rid cid => exact addChild_ok hInv hop

theorem runOps_invHeap (h : Heap) (hInv : InvHeap h) (ops : List EdgeOp)
    (hns : ∀ op ∈ ops, opRecv op ≠ opArg op) : InvHeap (runOps h ops) := by
  induction ops generalizing h with
  | nil => exact hInv
  | cons op t ih =>
    have h1 := applyOp_ok hInv (hns op (by simp))
    exact ih (applyOp h op).1 h1.1 (fun o ho => hns o (by simp [ho]))

theorem freshHeap_invHeap {h : Heap} (hF : FreshHeap h) : InvHeap h := by
  obtain ⟨hnd, hInj, hcl⟩ := hF
  refine ⟨⟨hnd, ?_⟩, hInj, ?_, ?_⟩
  · intro pr hp
    refine ⟨fun e he => ?_, fun e he => ?_⟩
    · rw [(hcl pr hp).2] at he
      cases he
    · rw [(hcl pr hp).1] at he
      cases he
  · intro pr hp q hq
    constructor
    · intro hh
      rw [(hcl pr hp).1] at hh
      cases hh
    · intro hh
      rw [(hcl q hq).2] at hh
      cases hh
  · rw [acyclicHeap_iff]
    rintro z ⟨v, _, hs⟩
    rcases (step_childAdj_iff h v z).mp hs with ⟨rr, hlr, hmem⟩
    have hce : rr.children = [] := (hcl (v, rr) (lookupRole_mem hlr)).2
    unfold childIds at hmem
    rw [hce] at hmem
    cases hmem


/-- C6: starting from a store of freshly created roles (pairwise
distinct names, no edges) and applying any sequence of
`AddParent`/`AddChild` calls whose argument is never the receiver
itself, the resulting parent/child relation is recorded symmetrically
and is acyclic, and each call of the sequence is atomic: a call that
returns an error leaves the store exactly as it was, and a call that
returns nil has installed both directions of its edge.  The original
claim's parenthetical — that this also holds for a role passed to its
own `AddParent`/`AddChild` — is refuted by the companion
counterexample. -/
theorem c6_symmetric_dag_atomic (h0 : Heap) (hF : FreshHeap h0) (ops : List EdgeOp)
    (hns : ∀ op ∈ ops, opRecv op ≠ opArg op) :
    SymmetricHeap (runOps h0 ops) ∧ AcyclicHeap (runOps h0 ops) ∧
      ∀ pre op post, ops = pre ++ op :: post →
        ((applyOp (runOps h0 pre) op).2 ≠ none →
          (applyOp (runOps h0 pre) op).1 = runOps h0 pre) ∧
        ((applyOp (runOps h0 pre) op).2 = none →
          BothEdges (applyOp (runOps h0 pre) op).1 (opEdge op).1 (opEdge op).2) := by
  have hInv0 := freshHeap_invHeap hF
  have hfin := runOps_invHeap h0 hInv0 ops hns
  refine ⟨hfin.2.2.1, hfin.2.2.2, ?_⟩
  intro pre op post heq
  have hpre : InvHeap (runOps h0 pre) := runOps_invHeap h0 hInv0 pre
    (fun o ho => hns o (by rw [heq]; exact List.mem_append.mpr (.inl ho)))
  have hop : opRecv op ≠ opArg op := hns op (by rw [heq]; simp)
  have hstep := applyOp_ok hpre hop
  exact ⟨hstep.2.1, hstep.2.2⟩

/-- Witness for C6 on a fresh two-role store and the single call
`a.AddParent(b)`: the hypotheses hold by evaluation and the theorem
applies. -/
theorem c6_witness :
    FreshHeap freshHeap2 ∧
      (∀ op ∈ [EdgeOp.parentOp 0 1], opRecv op ≠ opArg op) ∧
      (SymmetricHeap (runOps freshHeap2 [EdgeOp.parentOp 0 1]) ∧
        AcyclicHeap (runOps freshHeap2 [EdgeOp.parentOp 0 1]) ∧
        ∀ pre op post, [EdgeOp.parentOp 0 1] = pre ++ op :: post →
          ((applyOp (runOps freshHeap2 pre) op).2 ≠ none →
            (applyOp (runOps freshHeap2 pre) op).1 = runOps freshHeap2 pre) ∧
          ((applyOp (runOps freshHeap2 pre) op).2 = none →
            BothEdges (applyOp (runOps freshHeap2 pre) op).1
              (opEdge op).1 (opEdge op).2)) :=
  ⟨by decide, by decide,
    c6_symmetric_dag_atomic freshHeap2 (by decide) [EdgeOp.parentOp 0 1] (by decide)⟩

/-- Counterexample to C6's self-argument clause: `r.AddParent(r)` on
a fresh one-role store fails with the wrapped circular-reference
error, yet it mutates the store — the one-directional `parents` entry
stays installed, so the store is no longer symmetric and the failing
call did not install "neither direction". -/
theorem c6_counterexample :
    (AddParent selfHeap 0 0).2 = some (.wrap .circularRef "r") ∧
      (AddParent selfHeap 0 0).1 ≠ selfHeap ∧
      ¬ SymmetricHeap (AddParent selfHeap 0 0).1 :=
  ⟨rfl, by decide, by decide⟩

end Rbac
